import Mathlib

/-!
Verification of the redux-lite state-update core against its specification.

The TypeScript source is embedded shallowly. JavaScript values are modelled
by `JSValue`: primitives carry their value, while objects (plain records,
arrays, `Date`s) live in an explicit heap and are handled through numeric
references, so that JavaScript reference identity (`===`) is id equality
and deep structural equality is a separate recursive procedure, exactly as
in the source. Functions are modelled as indices into a function table
(each index is one distinct function object).

Embedded source files:
  * `src/utils.ts` — `isEqual`, `mergeState`
  * `src/reducer.ts` — `reducer`
  * `src/hook.ts` — generated dispatcher names
  * `src/provider.tsx` — `compose`, middleware wiring of `useCreateReducer`
  * `src/useSelector.ts` — `useSelector`
  * `src/devTools.ts` — DevTools bridge (with React's documented
    `useReducer` bail-out and `useEffect` dependency semantics for the
    parts of behaviour React itself decides)
-/

namespace ReduxLite

/-- A JavaScript value: a primitive, a function object (index into a
function table; distinct indices are distinct function objects), or a
reference to a heap object. Equality of `JSValue` is JavaScript `===` for
this fragment: primitives compare by value, functions and objects by
identity. -/
inductive JSValue where
  | vundef : JSValue
  | vnull : JSValue
  | vbool (b : Bool) : JSValue
  | vnum (n : Int) : JSValue
  | vstr (s : String) : JSValue
  | vfun (idx : Nat) : JSValue
  | ref (id : Nat) : JSValue
deriving DecidableEq, Repr

/-- The content of one heap object: a `Date` (by its instant), an array, or
a plain record with insertion-ordered own enumerable string keys. -/
inductive HObj where
  | date (time : Int) : HObj
  | arr (elems : List JSValue) : HObj
  | obj (fields : List (String × JSValue)) : HObj
deriving DecidableEq, Repr

/-- The heap: an association list from object id to content. Allocation
appends a fresh id, so earlier entries are never shadowed. -/
abbrev Heap := List (Nat × HObj)

/-- Look an object up in the heap. -/
def Heap.objAt (h : Heap) (i : Nat) : Option HObj :=
  (h.find? (fun p => p.1 == i)).map (fun p => p.2)

/-- Property read `o[k]` on a record's field list: a missing key yields
JavaScript `undefined`. -/
def lookupField (fs : List (String × JSValue)) (k : String) : JSValue :=
  match fs.find? (fun p => p.1 == k) with
  | some p => p.2
  | none => JSValue.vundef

/-- Whether a field list has an own property `k`
(`Object.prototype.hasOwnProperty`). -/
def hasOwn (fs : List (String × JSValue)) (k : String) : Bool :=
  fs.any (fun p => p.1 == k)

/-- Property assignment `o[k] = v` on a field list: an existing key keeps
its position, a new key is appended, as in JavaScript. -/
def setField (fs : List (String × JSValue)) (k : String) (v : JSValue) :
    List (String × JSValue) :=
  if hasOwn fs k then fs.map (fun p => if p.1 == k then (k, v) else p)
  else fs ++ [(k, v)]

/-- The own enumerable string-keyed properties of a heap object, as seen by
object spread: a record contributes its fields, an array its elements under
the keys "0", "1", …, a `Date` nothing. -/
def ownProps : HObj → List (String × JSValue)
  | HObj.date _ => []
  | HObj.arr es => (es.enum.map (fun p => (toString p.1, p.2)))
  | HObj.obj fs => fs

/-- Object spread `{...a, ...b}` on field lists: start from `a` and assign
each own property of `b` in order. -/
def spreadPair (as' bs : List (String × JSValue)) : List (String × JSValue) :=
  bs.foldl (fun acc p => setField acc p.1 p.2) as'

/-- A heap id strictly larger than every id in the heap, used for
allocation. -/
def freshId (h : Heap) : Nat :=
  h.foldr (fun p m => max p.1 m) 0 + 1

/-- The own properties of the object a value refers to (empty for
primitives and dangling references; the sources only spread values they
have checked to be objects). -/
def ownPropsOf (h : Heap) (v : JSValue) : List (String × JSValue) :=
  match v with
  | JSValue.ref i =>
    match h.objAt i with
    | some c => ownProps c
    | none => []
  | _ => []

/-- The test `typeof v === 'object' && v !== null && !Array.isArray(v)`:
`v` is a reference to a non-array heap object. -/
def isPlainObjVal (h : Heap) (v : JSValue) : Bool :=
  match v with
  | JSValue.ref i =>
    match h.objAt i with
    | some (HObj.arr _) => false
    | _ => true
  | _ => false

/-- The test `typeof v === 'object' && v !== null` alone (no array check):
any heap reference passes, arrays included. This is the check
`reducer.ts` applies to the candidate slice. -/
def isObjVal (v : JSValue) : Bool :=
  match v with
  | JSValue.ref _ => true
  | _ => false

/-- The body of `isEqual` from `src/utils.ts`, with the mutated `seen`
`WeakSet` threaded explicitly (additions made inside a recursive call stay
visible to later sibling comparisons, as with the shared `WeakSet`) and a
fuel argument for termination; one unit of fuel is consumed exactly when
the source recurses into an unseen heap object, so `h.length + 1` units can
never run out. A fast path handles `a === b`; only heap references pass
`objA && typeof objA === 'object'` (null is falsy, functions have typeof
'function'); `seen` is consulted and extended on the left operand before
the constructor check, the `Date` instant comparison, the length-guarded
element-wise array walk, or the key-set comparison of records. The source
returns `false` as soon as one element or key fails, which the folds mirror
by carrying the failure unchanged to the end. -/
def ieq (h : Heap) : Nat → JSValue → JSValue → List Nat → Bool × List Nat
  | 0, _, _, seen => (false, seen)
  | Nat.succ fuel, a, b, seen =>
    if a = b then (true, seen)
    else
      match a, b with
      | JSValue.ref i, JSValue.ref j =>
        if seen.contains i then (false, seen)
        else
          let seen1 := i :: seen
          match h.objAt i, h.objAt j with
          | some (HObj.date t1), some (HObj.date t2) => (t1 == t2, seen1)
          | some (HObj.arr ea), some (HObj.arr eb) =>
            if ea.length == eb.length then
              (ea.zip eb).foldl (fun acc q =>
                if acc.1 then ieq h fuel q.1 q.2 acc.2 else acc) (true, seen1)
            else (false, seen1)
          | some (HObj.obj fa), some (HObj.obj fb) =>
            if fa.length == fb.length then
              fa.foldl (fun acc q =>
                if acc.1 then
                  if hasOwn fb q.1 then ieq h fuel q.2 (lookupField fb q.1) acc.2
                  else (false, acc.2)
                else acc) (true, seen1)
            else (false, seen1)
          | _, _ => (false, seen1)
      | _, _ => (false, seen)

/-- The deep structural equality `isEqual(objA, objB)` of `src/utils.ts`,
entered with a fresh empty `seen` set. `h.length + 1` fuel is always
sufficient: each recursive descent records a distinct heap id in `seen`. -/
def isEqual (h : Heap) (a b : JSValue) : Bool :=
  (ieq h (h.length + 1) a b []).1

/-- An action as dispatched by the generated update functions:
`{type, payload, isPartial}` (`src/types.ts`). -/
structure Action where
  type : String
  payload : JSValue
  isPartial : Bool
deriving DecidableEq, Repr

/-- A table of JavaScript functions usable as updater payloads: index
`i` is one function object taking `(prevSliceValue, fullState)`. -/
abbrev FEnv := Nat → JSValue → JSValue → JSValue

/-- The field list of the state object `st` in heap `h` (the state is
always a plain record). -/
def stateFields (h : Heap) (st : Nat) : List (String × JSValue) :=
  match h.objAt st with
  | some (HObj.obj fs) => fs
  | _ => []

/-- The resolved candidate slice value: `typeof payload === 'function' ?
payload(oldSlice, state) : payload` (`src/reducer.ts` line 20). -/
def resolveCandidate (fenv : FEnv) (h : Heap) (st : Nat) (a : Action) :
    JSValue :=
  match a.payload with
  | JSValue.vfun i => fenv i (lookupField (stateFields h st) a.type) (JSValue.ref st)
  | p => p

/-- The reducer of `src/reducer.ts`, acting on the heap and the state
object's reference; it returns the (possibly grown) heap and the reference
of the resulting state. A partial update on a non-null non-array object
slice with a non-null object candidate shallow-merges (`{...oldSlice,
...newSlice}` allocates a fresh record even when it turns out deeply equal,
as the spread does in JavaScript); otherwise the candidate replaces the
slice; in both paths a deeply-equal outcome returns the original state
reference, and a change allocates a fresh top-level record that rebinds
only the addressed key. -/
def reducer (fenv : FEnv) (h : Heap) (st : Nat) (a : Action) : Heap × Nat :=
  let fs := stateFields h st
  let oldSlice := lookupField fs a.type
  let newSlice := resolveCandidate fenv h st a
  if a.isPartial && isPlainObjVal h oldSlice && isObjVal newSlice then
    let merged := spreadPair (ownPropsOf h oldSlice) (ownPropsOf h newSlice)
    let m := freshId h
    let h1 := h ++ [(m, HObj.obj merged)]
    if isEqual h1 oldSlice (JSValue.ref m) then (h1, st)
    else
      let n := freshId h1
      (h1 ++ [(n, HObj.obj (setField fs a.type (JSValue.ref m)))], n)
  else
    if isEqual h oldSlice newSlice then (h, st)
    else
      let n := freshId h
      (h ++ [(n, HObj.obj (setField fs a.type newSlice))], n)

/-- One step of the `for (const key in override)` loop of `mergeState`
(`src/utils.ts`): read the current value of the key from the (mutated) new
state, shallow-merge when both sides are non-null non-array objects
(allocating the fresh `{...baseValue, ...overrideValue}` record), otherwise
replace. -/
def mergeStateStep (acc : Heap × List (String × JSValue))
    (p : String × JSValue) : Heap × List (String × JSValue) :=
  let hAcc := acc.1
  let fsAcc := acc.2
  let baseValue := lookupField fsAcc p.1
  let overrideValue := p.2
  if isPlainObjVal hAcc baseValue && isPlainObjVal hAcc overrideValue then
    let merged := spreadPair (ownPropsOf hAcc baseValue) (ownPropsOf hAcc overrideValue)
    let m := freshId hAcc
    (hAcc ++ [(m, HObj.obj merged)], setField fsAcc p.1 (JSValue.ref m))
  else (hAcc, setField fsAcc p.1 overrideValue)

/-- The `mergeState(base, override)` of `src/utils.ts` on the field lists
of the two records: start from a copy of `base` and process each own key
of `override` in order. Returns the grown heap and the new state's field
list. -/
def mergeState (h : Heap) (base override : List (String × JSValue)) :
    Heap × List (String × JSValue) :=
  override.foldl mergeStateStep (h, base)

theorem objAt_append_of_present (h : Heap) (e : List (Nat × HObj)) (i : Nat)
    (hp : (h.objAt i).isSome) : (h ++ e).objAt i = h.objAt i := by
  unfold Heap.objAt at *
  induction h with
  | nil => simp at hp
  | cons p t ih =>
    by_cases hk : p.1 == i
    · simp [List.find?, hk]
    · simp only [List.cons_append, List.find?, hk] at *
      exact ih hp

theorem freshId_gt (h : Heap) (p : Nat × HObj) (hp : p ∈ h) :
    p.1 < freshId h := by
  unfold freshId
  induction h with
  | nil => simp at hp
  | cons q t ih =>
    rcases List.mem_cons.mp hp with rfl | hmem
    · simp only [List.foldr]
      omega
    · have := ih hmem
      simp only [List.foldr] at *
      omega

theorem objAt_none_of_ge_fresh (h : Heap) (i : Nat) (hi : freshId h ≤ i) :
    h.objAt i = none := by
  unfold Heap.objAt
  have hf : h.find? (fun p => p.1 == i) = none := by
    rw [List.find?_eq_none]
    intro p hp
    have := freshId_gt h p hp
    simp only [beq_iff_eq]
    omega
  simp [hf]

theorem objAt_append_one (h : Heap) (c : HObj) (i : Nat)
    (hi : h.objAt i = none) : (h ++ [(i, c)]).objAt i = some c := by
  unfold Heap.objAt at *
  rw [List.find?_append]
  simp only [List.find?]
  have : h.find? (fun p => p.1 == i) = none := by
    cases hfind : h.find? (fun p => p.1 == i) with
    | none => rfl
    | some p => rw [hfind] at hi; simp at hi
  simp [this]

theorem objAt_alloc_self (h : Heap) (c : HObj) :
    (h ++ [(freshId h, c)]).objAt (freshId h) = some c :=
  objAt_append_one h c (freshId h) (objAt_none_of_ge_fresh h _ (le_refl _))

theorem lookupField_setField_self (fs : List (String × JSValue)) (k : String)
    (v : JSValue) : lookupField (setField fs k v) k = v := by
  unfold setField
  by_cases hmem : hasOwn fs k
  · simp only [hmem, if_true]
    unfold hasOwn at hmem
    induction fs with
    | nil => simp at hmem
    | cons p t ih =>
      by_cases hk : p.1 == k
      · simp [lookupField, List.find?, hk]
      · simp only [List.any_cons, hk, Bool.false_or] at hmem
        simpa [lookupField, List.find?, hk] using ih hmem
  · simp only [hmem, if_false, Bool.false_eq_true]
    unfold hasOwn at hmem
    unfold lookupField
    rw [List.find?_append]
    have : fs.find? (fun p => p.1 == k) = none := by
      rw [List.find?_eq_none]
      intro p hp
      by_contra hc
      exact hmem (List.any_of_mem hp (by simpa using hc))
    simp [this, List.find?]

theorem find?_map_replace (fs : List (String × JSValue)) (k k' : String)
    (v : JSValue) (hne : k' ≠ k) :
    List.find? (fun p => p.1 == k')
      (fs.map (fun p => if p.1 == k then (k, v) else p)) =
    List.find? (fun p => p.1 == k') fs := by
  induction fs with
  | nil => rfl
  | cons p t ih =>
    simp only [List.map_cons]
    by_cases hpk : p.1 = k
    · rw [if_pos (by simp [hpk])]
      rw [List.find?_cons_of_neg _ (by simp [beq_iff_eq]; exact fun h => hne h.symm),
        List.find?_cons_of_neg _ (by simp [beq_iff_eq, hpk]; exact fun h => hne h.symm)]
      exact ih
    · rw [if_neg (by simp [hpk])]
      by_cases hpk' : p.1 = k'
      · rw [List.find?_cons_of_pos _ (by simp [hpk']),
          List.find?_cons_of_pos _ (by simp [hpk'])]
      · rw [List.find?_cons_of_neg _ (by simp [hpk']),
          List.find?_cons_of_neg _ (by simp [hpk'])]
        exact ih

theorem lookupField_setField_ne (fs : List (String × JSValue)) (k k' : String)
    (v : JSValue) (hne : k' ≠ k) :
    lookupField (setField fs k v) k' = lookupField fs k' := by
  unfold setField
  cases hmem : hasOwn fs k with
  | true =>
    simp only [hmem, if_true]
    unfold lookupField
    rw [find?_map_replace fs k k' v hne]
  | false =>
    simp only [hmem, Bool.false_eq_true, if_false]
    unfold lookupField
    rw [List.find?_append]
    cases hfind : fs.find? (fun p => p.1 == k') with
    | some p => simp [hfind]
    | none =>
      simp only [hfind, Option.none_or]
      rw [List.find?_cons_of_neg _ (by simp [beq_iff_eq]; exact fun h => hne h.symm)]
      simp [List.find?]

theorem hasOwn_iff (fs : List (String × JSValue)) (k : String) :
    hasOwn fs k = true ↔ k ∈ fs.map Prod.fst := by
  unfold hasOwn
  rw [List.any_eq_true]
  constructor
  · rintro ⟨p, hp, he⟩
    have hpk : p.1 = k := by simpa using he
    exact hpk ▸ List.mem_map_of_mem Prod.fst hp
  · intro hk
    rcases List.mem_map.mp hk with ⟨p, hp, he⟩
    exact ⟨p, hp, by simp [he]⟩

theorem spreadPair_cons (as' : List (String × JSValue))
    (p : String × JSValue) (t : List (String × JSValue)) :
    spreadPair as' (p :: t) = spreadPair (setField as' p.1 p.2) t := rfl

theorem lookupField_spread_not_own (as' bs : List (String × JSValue))
    (k : String) (hk : hasOwn bs k = false) :
    lookupField (spreadPair as' bs) k = lookupField as' k := by
  induction bs generalizing as' with
  | nil => rfl
  | cons p t ih =>
    unfold hasOwn at hk
    simp only [List.any_cons, Bool.or_eq_false_iff] at hk
    rw [spreadPair_cons, ih _ (by unfold hasOwn; exact hk.2)]
    exact lookupField_setField_ne as' p.1 k p.2
      (fun he => by rw [he] at hk; simp at hk)

theorem lookupField_spread_own (as' bs : List (String × JSValue)) (k : String)
    (hnd : (bs.map Prod.fst).Nodup) (hk : hasOwn bs k = true) :
    lookupField (spreadPair as' bs) k = lookupField bs k := by
  induction bs generalizing as' with
  | nil => simp [hasOwn] at hk
  | cons p t ih =>
    simp only [List.map_cons, List.nodup_cons] at hnd
    rw [spreadPair_cons]
    by_cases hpk : p.1 = k
    · have hnot : hasOwn t k = false := by
        rw [Bool.eq_false_iff]
        intro hc
        exact hnd.1 (hpk ▸ (hasOwn_iff t k).mp hc)
      rw [lookupField_spread_not_own _ _ _ hnot]
      subst hpk
      rw [lookupField_setField_self]
      unfold lookupField
      rw [List.find?_cons_of_pos _ (by simp)]
    · have hk' : hasOwn t k = true := by
        unfold hasOwn at hk ⊢
        rcases List.any_eq_true.mp hk with ⟨q, hq, he⟩
        rcases List.mem_cons.mp hq with rfl | hqt
        · exact absurd (by simpa using he) hpk
        · exact List.any_eq_true.mpr ⟨q, hqt, he⟩
      rw [ih _ hnd.2 hk']
      unfold lookupField
      rw [List.find?_cons_of_neg _ (by simp [hpk])]

/-- The current value of the addressed slice, `state[type]`. -/
def oldSliceOf (h : Heap) (st : Nat) (a : Action) : JSValue :=
  lookupField (stateFields h st) a.type

/-- The guard of the reducer's shallow-merge branch (`src/reducer.ts` line
24): a partial update whose current slice is a non-null non-array object
and whose resolved candidate is a non-null object. -/
def partialMergeApplies (fenv : FEnv) (h : Heap) (st : Nat) (a : Action) :
    Bool :=
  a.isPartial && isPlainObjVal h (oldSliceOf h st a) &&
    isObjVal (resolveCandidate fenv h st a)

/-- The field list of the shallow merge `{...oldSlice, ...newSlice}`. -/
def mergedFieldsOf (fenv : FEnv) (h : Heap) (st : Nat) (a : Action) :
    List (String × JSValue) :=
  spreadPair (ownPropsOf h (oldSliceOf h st a))
    (ownPropsOf h (resolveCandidate fenv h st a))

/-- Whether the dispatch resolves to a no-op for the reducer: on the
shallow-merge branch the freshly built merged record is deeply equal to the
current slice, and on the full-replacement branch the resolved candidate is
deeply equal to the current slice. -/
def dispatchIsNoop (fenv : FEnv) (h : Heap) (st : Nat) (a : Action) : Bool :=
  if partialMergeApplies fenv h st a then
    isEqual (h ++ [(freshId h, HObj.obj (mergedFieldsOf fenv h st a))])
      (oldSliceOf h st a) (JSValue.ref (freshId h))
  else isEqual h (oldSliceOf h st a) (resolveCandidate fenv h st a)

theorem freshId_le_append (h e : Heap) : freshId h ≤ freshId (h ++ e) := by
  unfold freshId
  rw [List.foldr_append]
  have : ∀ (l : Heap) (b b' : Nat), b ≤ b' →
      l.foldr (fun p m => max p.1 m) b ≤ l.foldr (fun p m => max p.1 m) b' := by
    intro l
    induction l with
    | nil => intro b b' hb; exact hb
    | cons q t ih =>
      intro b b' hb
      simp only [List.foldr]
      exact max_le_max (le_refl _) (ih b b' hb)
  have h0 : (0 : Nat) ≤ e.foldr (fun p m => max p.1 m) 0 := Nat.zero_le _
  exact Nat.succ_le_succ (this h 0 _ h0)

/-- C1. Idempotent no-op dispatch: when the resolved candidate (full
update, partial fallback) or the shallow-merge result (partial update on an
object slice) is deeply equal to the current slice, the reducer returns
the identical state reference. -/
theorem reducer_noop_returns_same_reference (fenv : FEnv) (h : Heap)
    (st : Nat) (a : Action) (hno : dispatchIsNoop fenv h st a = true) :
    (reducer fenv h st a).2 = st := by
  unfold dispatchIsNoop at hno
  unfold reducer
  cases hc : partialMergeApplies fenv h st a with
  | true =>
    rw [hc, if_pos rfl] at hno
    unfold partialMergeApplies oldSliceOf at hc
    unfold mergedFieldsOf oldSliceOf at hno
    simp only [hc, if_true]
    simp only [hno, if_true]
  | false =>
    rw [hc] at hno
    simp only [Bool.false_eq_true, if_false] at hno
    unfold partialMergeApplies oldSliceOf at hc
    unfold oldSliceOf at hno
    simp only [hc, Bool.false_eq_true, if_false]
    simp only [hno, if_true]

/-- Concrete instance of C1: state `{count: 5}` (object 1), full dispatch
of payload `5`, the state reference is returned unchanged. -/
theorem reducer_noop_returns_same_reference_witness :
    (reducer (fun _ _ _ => JSValue.vundef)
      [(1, HObj.obj [("count", JSValue.vnum 5)])] 1
      ⟨"count", JSValue.vnum 5, false⟩).2 = 1 :=
  reducer_noop_returns_same_reference _ _ _ _ (by rfl)

/-- C2. Frame property of a state-changing dispatch: the result is a fresh
top-level record, absent from the pre-dispatch heap; every key other than
the addressed one keeps its previous value (hence its previous reference);
on the shallow-merge branch the addressed key holds a fresh record that
retains every old-slice key not overridden by an own key of the candidate;
on the full-replacement branch the addressed key holds exactly the
resolved candidate value. -/
theorem reducer_change_frame (fenv : FEnv) (h : Heap) (st : Nat) (a : Action)
    (hch : (reducer fenv h st a).2 ≠ st) :
    h.objAt (reducer fenv h st a).2 = none ∧
    ∃ nf, (reducer fenv h st a).1.objAt (reducer fenv h st a).2 =
        some (HObj.obj nf) ∧
      (∀ k', k' ≠ a.type → lookupField nf k' =
        lookupField (stateFields h st) k') ∧
      (partialMergeApplies fenv h st a = true →
        lookupField nf a.type = JSValue.ref (freshId h) ∧
        (reducer fenv h st a).1.objAt (freshId h) =
          some (HObj.obj (mergedFieldsOf fenv h st a)) ∧
        ∀ k, hasOwn (ownPropsOf h (resolveCandidate fenv h st a)) k = false →
          lookupField (mergedFieldsOf fenv h st a) k =
            lookupField (ownPropsOf h (oldSliceOf h st a)) k) ∧
      (partialMergeApplies fenv h st a = false →
        lookupField nf a.type = resolveCandidate fenv h st a) := by
  unfold reducer at *
  cases hc : partialMergeApplies fenv h st a with
  | true =>
    have hc' := hc
    unfold partialMergeApplies oldSliceOf at hc'
    simp only [hc', if_true] at hch ⊢
    cases heq : isEqual (h ++ [(freshId h, HObj.obj
        (spreadPair (ownPropsOf h (lookupField (stateFields h st) a.type))
          (ownPropsOf h (resolveCandidate fenv h st a))))])
        (lookupField (stateFields h st) a.type)
        (JSValue.ref (freshId h)) with
    | true => simp only [heq, if_true] at hch; exact absurd rfl hch
    | false =>
      simp only [heq, Bool.false_eq_true, if_false] at hch ⊢
      constructor
      · apply objAt_none_of_ge_fresh
        exact le_trans (freshId_le_append h _) (le_refl _)
      · refine ⟨setField (stateFields h st) a.type (JSValue.ref (freshId h)),
          objAt_alloc_self _ _, ?_, ?_, ?_⟩
        · intro k' hk'
          exact lookupField_setField_ne _ _ _ _ hk'
        · intro _
          refine ⟨lookupField_setField_self _ _ _, ?_, ?_⟩
          · rw [objAt_append_of_present]
            · exact objAt_alloc_self h _
            · rw [objAt_alloc_self h _]
              rfl
          · intro k hk
            exact lookupField_spread_not_own _ _ _ hk
        · intro hfa
          exact absurd hfa (by simp)
  | false =>
    have hc' := hc
    unfold partialMergeApplies oldSliceOf at hc'
    simp only [hc', Bool.false_eq_true, if_false] at hch ⊢
    cases heq : isEqual h (lookupField (stateFields h st) a.type)
        (resolveCandidate fenv h st a) with
    | true => simp only [heq, if_true] at hch; exact absurd rfl hch
    | false =>
      simp only [heq, Bool.false_eq_true, if_false] at hch ⊢
      refine ⟨objAt_none_of_ge_fresh h _ (le_refl _),
        setField (stateFields h st) a.type (resolveCandidate fenv h st a),
        objAt_alloc_self _ _, ?_, ?_, ?_⟩
      · intro k' hk'
        exact lookupField_setField_ne _ _ _ _ hk'
      · intro hta
        exact absurd hta (by simp)
      · intro _
        exact lookupField_setField_self _ _ _

/-- Concrete instance of C2: state `{count: 5, user: (object 0)}` (object
1), full dispatch of payload `6` to `count` changes the state reference,
and the resulting reference does not occur in the pre-dispatch heap. -/
theorem reducer_change_frame_witness :
    ((reducer (fun _ _ _ => JSValue.vundef)
        [(0, HObj.obj []), (1, HObj.obj [("count", JSValue.vnum 5),
          ("user", JSValue.ref 0)])] 1
        ⟨"count", JSValue.vnum 6, false⟩).2 ≠ 1) ∧
    Heap.objAt [(0, HObj.obj []), (1, HObj.obj [("count", JSValue.vnum 5),
        ("user", JSValue.ref 0)])]
      (reducer (fun _ _ _ => JSValue.vundef)
        [(0, HObj.obj []), (1, HObj.obj [("count", JSValue.vnum 5),
          ("user", JSValue.ref 0)])] 1
        ⟨"count", JSValue.vnum 6, false⟩).2 = none :=
  ⟨by decide, (reducer_change_frame (fun _ _ _ => JSValue.vundef)
    [(0, HObj.obj []), (1, HObj.obj [("count", JSValue.vnum 5),
      ("user", JSValue.ref 0)])] 1
    ⟨"count", JSValue.vnum 6, false⟩ (by decide)).1⟩

/-- C3. The reducer's partial-update guard (`src/reducer.ts` line 24)
checks `!Array.isArray(oldSlice)` but not `!Array.isArray(newSlice)`,
although the adjacent comment promises a fall back to a full update when
`newSlice` is an array. Dispatching `{type: "k", payload: [5], isPartial:
true}` on state `{k: {a: 1}}` (state object 2, slice object 0, payload
array object 1) therefore spreads the array into the record: the new slice
is the fresh record `{a: 1, "0": 5}` (object 3), not the array object 1
that full-replacement semantics would install. -/
theorem reducer_partial_array_candidate_is_merged :
    ((reducer (fun _ _ _ => JSValue.vundef)
        [(0, HObj.obj [("a", JSValue.vnum 1)]), (1, HObj.arr [JSValue.vnum 5]),
          (2, HObj.obj [("k", JSValue.ref 0)])] 2
        ⟨"k", JSValue.ref 1, true⟩).2 = 4) ∧
    ((reducer (fun _ _ _ => JSValue.vundef)
        [(0, HObj.obj [("a", JSValue.vnum 1)]), (1, HObj.arr [JSValue.vnum 5]),
          (2, HObj.obj [("k", JSValue.ref 0)])] 2
        ⟨"k", JSValue.ref 1, true⟩).1.objAt 4 =
      some (HObj.obj [("k", JSValue.ref 3)])) ∧
    ((reducer (fun _ _ _ => JSValue.vundef)
        [(0, HObj.obj [("a", JSValue.vnum 1)]), (1, HObj.arr [JSValue.vnum 5]),
          (2, HObj.obj [("k", JSValue.ref 0)])] 2
        ⟨"k", JSValue.ref 1, true⟩).1.objAt 3 =
      some (HObj.obj [("a", JSValue.vnum 1), ("0", JSValue.vnum 5)])) := by
  decide

/-- C10. A function payload is always invoked as an updater with the
current slice value and the full state, and the dispatch then behaves
exactly like a dispatch of the updater's return value (assuming that
return value is itself not a function; if it is, it is still that return
value, never the dispatched function, that continues into the reducer). -/
theorem reducer_function_payload_resolves (fenv : FEnv) (h : Heap) (st : Nat)
    (a : Action) (i : Nat) (hp : a.payload = JSValue.vfun i)
    (hfn : ∀ j, fenv i (oldSliceOf h st a) (JSValue.ref st) ≠ JSValue.vfun j) :
    resolveCandidate fenv h st a =
      fenv i (oldSliceOf h st a) (JSValue.ref st) ∧
    reducer fenv h st a =
      reducer fenv h st
        ⟨a.type, fenv i (oldSliceOf h st a) (JSValue.ref st), a.isPartial⟩ := by
  have hres : resolveCandidate fenv h st a =
      fenv i (oldSliceOf h st a) (JSValue.ref st) := by
    unfold resolveCandidate oldSliceOf
    rw [hp]
  have hres2 : resolveCandidate fenv h st
      ⟨a.type, fenv i (oldSliceOf h st a) (JSValue.ref st), a.isPartial⟩ =
      fenv i (oldSliceOf h st a) (JSValue.ref st) := by
    unfold resolveCandidate
    cases hv : fenv i (oldSliceOf h st a) (JSValue.ref st) with
    | vfun j => exact absurd hv (hfn j)
    | vundef => rfl
    | vnull => rfl
    | vbool b => rfl
    | vnum n => rfl
    | vstr s => rfl
    | ref id => rfl
  refine ⟨hres, ?_⟩
  unfold reducer
  rw [hres, hres2]

/-- Concrete instance of C10: dispatching the updater that returns `6` on
state `{count: 5}` is the same dispatch as dispatching `6` directly. -/
theorem reducer_function_payload_resolves_witness :
    reducer (fun _ _ _ => JSValue.vnum 6)
      [(1, HObj.obj [("count", JSValue.vnum 5)])] 1
      ⟨"count", JSValue.vfun 0, false⟩ =
    reducer (fun _ _ _ => JSValue.vnum 6)
      [(1, HObj.obj [("count", JSValue.vnum 5)])] 1
      ⟨"count", JSValue.vnum 6, false⟩ :=
  (reducer_function_payload_resolves (fun _ _ _ => JSValue.vnum 6)
    [(1, HObj.obj [("count", JSValue.vnum 5)])] 1
    ⟨"count", JSValue.vfun 0, false⟩ 0 rfl
    (fun _ hx => JSValue.noConfusion hx)).2

theorem lookupField_cons_self (p : String × JSValue)
    (t : List (String × JSValue)) : lookupField (p :: t) p.1 = p.2 := by
  unfold lookupField
  rw [List.find?_cons_of_pos _ (by simp)]

theorem lookupField_cons_ne (p : String × JSValue)
    (t : List (String × JSValue)) (k : String) (hne : p.1 ≠ k) :
    lookupField (p :: t) k = lookupField t k := by
  unfold lookupField
  rw [List.find?_cons_of_neg _ (by simp [hne])]

theorem hasOwn_cons (p : String × JSValue) (t : List (String × JSValue))
    (k : String) : hasOwn (p :: t) k = (p.1 == k || hasOwn t k) := by
  simp [hasOwn]

theorem isPlainObjVal_stable (h h' : Heap) (v : JSValue)
    (hext : ∀ i, (Heap.objAt h i).isSome → h'.objAt i = Heap.objAt h i)
    (hcl : ∀ i, v = JSValue.ref i → (Heap.objAt h i).isSome) :
    isPlainObjVal h' v = isPlainObjVal h v := by
  cases v with
  | ref i =>
    have hi := hext i (hcl i rfl)
    show (match h'.objAt i with
      | some (HObj.arr _) => false
      | _ => true) =
      (match Heap.objAt h i with
      | some (HObj.arr _) => false
      | _ => true)
    rw [hi]
  | vundef => rfl
  | vnull => rfl
  | vbool b => rfl
  | vnum n => rfl
  | vstr s => rfl
  | vfun j => rfl

theorem ownPropsOf_stable (h h' : Heap) (v : JSValue)
    (hext : ∀ i, (Heap.objAt h i).isSome → h'.objAt i = Heap.objAt h i)
    (hcl : ∀ i, v = JSValue.ref i → (Heap.objAt h i).isSome) :
    ownPropsOf h' v = ownPropsOf h v := by
  cases v with
  | ref i =>
    have hi := hext i (hcl i rfl)
    show (match h'.objAt i with
      | some c => ownProps c
      | none => []) =
      (match Heap.objAt h i with
      | some c => ownProps c
      | none => [])
    rw [hi]
  | vundef => rfl
  | vnull => rfl
  | vbool b => rfl
  | vnum n => rfl
  | vstr s => rfl
  | vfun j => rfl

theorem mergeStateStep_true (hAcc : Heap) (fsAcc : List (String × JSValue))
    (p : String × JSValue)
    (hc : (isPlainObjVal hAcc (lookupField fsAcc p.1) &&
      isPlainObjVal hAcc p.2) = true) :
    mergeStateStep (hAcc, fsAcc) p =
      (hAcc ++ [(freshId hAcc, HObj.obj
          (spreadPair (ownPropsOf hAcc (lookupField fsAcc p.1))
            (ownPropsOf hAcc p.2)))],
        setField fsAcc p.1 (JSValue.ref (freshId hAcc))) := by
  unfold mergeStateStep
  simp only [hc, if_true]

theorem mergeStateStep_false (hAcc : Heap) (fsAcc : List (String × JSValue))
    (p : String × JSValue)
    (hc : (isPlainObjVal hAcc (lookupField fsAcc p.1) &&
      isPlainObjVal hAcc p.2) = false) :
    mergeStateStep (hAcc, fsAcc) p = (hAcc, setField fsAcc p.1 p.2) := by
  unfold mergeStateStep
  simp only [hc, Bool.false_eq_true, if_false]

/-- Invariant of the `for (const key in override)` fold of `mergeState`,
parameterised over the heap/field-list accumulator: the fold only appends
fresh objects to the heap; keys without an own override entry keep their
accumulator value; an override key whose base and override values are both
non-null non-array objects receives a reference to a freshly allocated
shallow merge of the two; any other override key receives the override
value itself. -/
theorem mergeState_fold_spec (h : Heap) (base : List (String × JSValue)) :
    ∀ (override : List (String × JSValue)) (h' : Heap)
      (fsAcc : List (String × JSValue)),
    (override.map Prod.fst).Nodup →
    (∀ k, hasOwn override k = true → ∀ i,
      lookupField base k = JSValue.ref i → (Heap.objAt h i).isSome) →
    (∀ p ∈ override, ∀ i, p.2 = JSValue.ref i → (Heap.objAt h i).isSome) →
    (∀ i, (Heap.objAt h i).isSome → h'.objAt i = Heap.objAt h i) →
    freshId h ≤ freshId h' →
    (∀ k, hasOwn override k = true →
      lookupField fsAcc k = lookupField base k) →
    (∀ i, (h'.objAt i).isSome →
      (override.foldl mergeStateStep (h', fsAcc)).1.objAt i = h'.objAt i) ∧
    freshId h' ≤ freshId (override.foldl mergeStateStep (h', fsAcc)).1 ∧
    (∀ k, hasOwn override k = false →
      lookupField (override.foldl mergeStateStep (h', fsAcc)).2 k =
        lookupField fsAcc k) ∧
    (∀ k, hasOwn override k = true →
      (isPlainObjVal h (lookupField base k) &&
        isPlainObjVal h (lookupField override k)) = true →
      ∃ m, lookupField (override.foldl mergeStateStep (h', fsAcc)).2 k =
          JSValue.ref m ∧ freshId h ≤ m ∧
        (override.foldl mergeStateStep (h', fsAcc)).1.objAt m =
          some (HObj.obj (spreadPair (ownPropsOf h (lookupField base k))
            (ownPropsOf h (lookupField override k))))) ∧
    (∀ k, hasOwn override k = true →
      (isPlainObjVal h (lookupField base k) &&
        isPlainObjVal h (lookupField override k)) = false →
      lookupField (override.foldl mergeStateStep (h', fsAcc)).2 k =
        lookupField override k) := by
  intro override
  induction override with
  | nil =>
    intro h' fsAcc _ _ _ _ _ _
    refine ⟨fun i _ => rfl, le_refl _, fun k _ => rfl, ?_, ?_⟩
    · intro k hk
      simp [hasOwn] at hk
    · intro k hk
      simp [hasOwn] at hk
  | cons p t ih =>
    intro h' fsAcc hnd hclb hclo hext hfr hbase
    have hownHead : hasOwn (p :: t) p.1 = true := by
      rw [hasOwn_cons]
      simp
    have hbv : lookupField fsAcc p.1 = lookupField base p.1 :=
      hbase p.1 hownHead
    simp only [List.map_cons, List.nodup_cons] at hnd
    have hnt : hasOwn t p.1 = false := by
      rw [Bool.eq_false_iff]
      intro hcont
      exact hnd.1 ((hasOwn_iff t p.1).mp hcont)
    have hclbv : ∀ i, lookupField base p.1 = JSValue.ref i →
        (Heap.objAt h i).isSome := hclb p.1 hownHead
    have hclov : ∀ i, p.2 = JSValue.ref i → (Heap.objAt h i).isSome :=
      hclo p (List.mem_cons_self p t)
    have hpbv : isPlainObjVal h' (lookupField fsAcc p.1) =
        isPlainObjVal h (lookupField base p.1) := by
      rw [hbv]
      exact isPlainObjVal_stable h h' _ hext hclbv
    have hpov : isPlainObjVal h' p.2 = isPlainObjVal h p.2 :=
      isPlainObjVal_stable h h' _ hext hclov
    have hovHead : lookupField (p :: t) p.1 = p.2 := lookupField_cons_self p t
    have hownT : ∀ k, hasOwn t k = true → hasOwn (p :: t) k = true := by
      intro k hk
      rw [hasOwn_cons, hk]
      simp
    have hclbT : ∀ k, hasOwn t k = true → ∀ i,
        lookupField base k = JSValue.ref i → (Heap.objAt h i).isSome :=
      fun k hk => hclb k (hownT k hk)
    have hcloT : ∀ q ∈ t, ∀ i, q.2 = JSValue.ref i →
        (Heap.objAt h i).isSome :=
      fun q hq => hclo q (List.mem_cons_of_mem p hq)
    cases hc : (isPlainObjVal h' (lookupField fsAcc p.1) &&
        isPlainObjVal h' p.2) with
    | true =>
      rw [List.foldl_cons, mergeStateStep_true h' fsAcc p hc]
      have hcbase : (isPlainObjVal h (lookupField base p.1) &&
          isPlainObjVal h (lookupField (p :: t) p.1)) = true := by
        rw [hovHead, ← hpbv, ← hpov]
        exact hc
      have hmerged : spreadPair (ownPropsOf h' (lookupField fsAcc p.1))
          (ownPropsOf h' p.2) =
          spreadPair (ownPropsOf h (lookupField base p.1))
            (ownPropsOf h p.2) := by
        rw [hbv, ownPropsOf_stable h h' _ hext hclbv,
          ownPropsOf_stable h h' _ hext hclov]
      have hpres1 : ∀ i, (h'.objAt i).isSome →
          (h' ++ [(freshId h', HObj.obj
            (spreadPair (ownPropsOf h' (lookupField fsAcc p.1))
              (ownPropsOf h' p.2)))]).objAt i = h'.objAt i :=
        fun i hi => objAt_append_of_present h' _ i hi
      have hext1 : ∀ i, (Heap.objAt h i).isSome →
          (h' ++ [(freshId h', HObj.obj
            (spreadPair (ownPropsOf h' (lookupField fsAcc p.1))
              (ownPropsOf h' p.2)))]).objAt i = Heap.objAt h i := by
        intro i hi
        rw [hpres1 i (by rw [hext i hi]; exact hi)]
        exact hext i hi
      have hfr1 : freshId h ≤ freshId (h' ++ [(freshId h', HObj.obj
          (spreadPair (ownPropsOf h' (lookupField fsAcc p.1))
            (ownPropsOf h' p.2)))]) :=
        le_trans hfr (freshId_le_append h' _)
      have hbase1 : ∀ k, hasOwn t k = true →
          lookupField (setField fsAcc p.1 (JSValue.ref (freshId h'))) k =
            lookupField base k := by
        intro k hk
        have hkne : k ≠ p.1 := by
          intro he
          rw [he] at hk
          rw [hk] at hnt
          exact absurd hnt (by simp)
        rw [lookupField_setField_ne _ _ _ _ hkne]
        exact hbase k (hownT k hk)
      rcases ih (h' ++ [(freshId h', HObj.obj
          (spreadPair (ownPropsOf h' (lookupField fsAcc p.1))
            (ownPropsOf h' p.2)))])
        (setField fsAcc p.1 (JSValue.ref (freshId h')))
        hnd.2 hclbT hcloT hext1 hfr1 hbase1 with
        ⟨ihA, ihF, ihB, ihC, ihD⟩
      refine ⟨?_, ?_, ?_, ?_, ?_⟩
      · intro i hi
        rw [ihA i (by rw [hpres1 i hi]; exact hi), hpres1 i hi]
      · exact le_trans (freshId_le_append h' _) ihF
      · intro k hk
        rw [hasOwn_cons, Bool.or_eq_false_iff] at hk
        rw [ihB k hk.2, lookupField_setField_ne _ _ _ _
          (fun he => by rw [he] at hk; simp at hk)]
      · intro k hk hplain
        by_cases hkp : k = p.1
        · subst hkp
          refine ⟨freshId h', ?_, hfr, ?_⟩
          · rw [ihB p.1 hnt, lookupField_setField_self]
          · rw [ihA (freshId h') (by rw [objAt_alloc_self]; rfl),
              objAt_alloc_self, hmerged, hovHead]
        · have hkt : hasOwn t k = true := by
            rw [hasOwn_cons] at hk
            rcases Bool.or_eq_true_iff.mp hk with hkh | hkt
            · have hkk : p.1 = k := by simpa using hkh
              exact absurd hkk.symm hkp
            · exact hkt
          have hovk : lookupField (p :: t) k = lookupField t k :=
            lookupField_cons_ne p t k (fun he => hkp he.symm)
          rw [hovk] at hplain
          rcases ihC k hkt hplain with ⟨m, hm1, hm2, hm3⟩
          refine ⟨m, hm1, hm2, ?_⟩
          rw [hovk]
          exact hm3
      · intro k hk hplain
        by_cases hkp : k = p.1
        · subst hkp
          rw [hovHead, ← hpbv, ← hpov, hc] at hplain
          exact absurd hplain (by simp)
        · have hkt : hasOwn t k = true := by
            rw [hasOwn_cons] at hk
            rcases Bool.or_eq_true_iff.mp hk with hkh | hkt
            · have hkk : p.1 = k := by simpa using hkh
              exact absurd hkk.symm hkp
            · exact hkt
          have hovk : lookupField (p :: t) k = lookupField t k :=
            lookupField_cons_ne p t k (fun he => hkp he.symm)
          rw [hovk] at hplain ⊢
          exact ihD k hkt hplain
    | false =>
      rw [List.foldl_cons, mergeStateStep_false h' fsAcc p hc]
      have hcbase : (isPlainObjVal h (lookupField base p.1) &&
          isPlainObjVal h (lookupField (p :: t) p.1)) = false := by
        rw [hovHead, ← hpbv, ← hpov]
        exact hc
      have hbase1 : ∀ k, hasOwn t k = true →
          lookupField (setField fsAcc p.1 p.2) k = lookupField base k := by
        intro k hk
        have hkne : k ≠ p.1 := by
          intro he
          rw [he] at hk
          rw [hk] at hnt
          exact absurd hnt (by simp)
        rw [lookupField_setField_ne _ _ _ _ hkne]
        exact hbase k (hownT k hk)
      rcases ih h' (setField fsAcc p.1 p.2) hnd.2 hclbT hcloT hext hfr hbase1
        with ⟨ihA, ihF, ihB, ihC, ihD⟩
      refine ⟨ihA, ihF, ?_, ?_, ?_⟩
      · intro k hk
        rw [hasOwn_cons, Bool.or_eq_false_iff] at hk
        rw [ihB k hk.2, lookupField_setField_ne _ _ _ _
          (fun he => by rw [he] at hk; simp at hk)]
      · intro k hk hplain
        by_cases hkp : k = p.1
        · subst hkp
          rw [hcbase] at hplain
          exact absurd hplain (by simp)
        · have hkt : hasOwn t k = true := by
            rw [hasOwn_cons] at hk
            rcases Bool.or_eq_true_iff.mp hk with hkh | hkt
            · have hkk : p.1 = k := by simpa using hkh
              exact absurd hkk.symm hkp
            · exact hkt
          have hovk : lookupField (p :: t) k = lookupField t k :=
            lookupField_cons_ne p t k (fun he => hkp he.symm)
          rw [hovk] at hplain
          rcases ihC k hkt hplain with ⟨m, hm1, hm2, hm3⟩
          refine ⟨m, hm1, hm2, ?_⟩
          rw [hovk]
          exact hm3
      · intro k hk hplain
        by_cases hkp : k = p.1
        · subst hkp
          rw [ihB p.1 hnt, lookupField_setField_self, hovHead]
        · have hkt : hasOwn t k = true := by
            rw [hasOwn_cons] at hk
            rcases Bool.or_eq_true_iff.mp hk with hkh | hkt
            · have hkk : p.1 = k := by simpa using hkh
              exact absurd hkk.symm hkp
            · exact hkt
          have hovk : lookupField (p :: t) k = lookupField t k :=
            lookupField_cons_ne p t k (fun he => hkp he.symm)
          rw [hovk] at hplain ⊢
          exact ihD k hkt hplain

/-- Whether a value's reference, if any, resolves in the heap. -/
def valClosed (h : Heap) (v : JSValue) : Bool :=
  match v with
  | JSValue.ref i => (Heap.objAt h i).isSome
  | _ => true

theorem lookupField_eq_ref_mem (fs : List (String × JSValue)) (k : String)
    (i : Nat) (hi : lookupField fs k = JSValue.ref i) :
    ∃ p ∈ fs, p.2 = JSValue.ref i := by
  unfold lookupField at hi
  cases hf : fs.find? (fun p => p.1 == k) with
  | some p =>
    rw [hf] at hi
    exact ⟨p, List.mem_of_find?_eq_some hf, hi⟩
  | none =>
    rw [hf] at hi
    exact absurd hi (by simp)

/-- C4. `mergeState(base, override)`: a key absent from `override` keeps
its base value unchanged (by reference); a key present in `override` whose
base and override values are both non-null non-array objects receives a
freshly allocated one-level shallow merge `{...baseValue, ...overrideValue}`
(within that merge an own key of the override wins and carries the
override's value itself — nested objects are replaced wholesale by
reference, never merged recursively — and every other base key is
retained); any other key present in `override` (primitive, array, null or
explicitly undefined on either side) receives the override value itself,
replacing the base value wholesale. -/
theorem mergeState_spec (h : Heap) (base override : List (String × JSValue))
    (hnd : (override.map Prod.fst).Nodup)
    (hclb : ∀ p ∈ base, valClosed h p.2 = true)
    (hclo : ∀ p ∈ override, valClosed h p.2 = true) :
    (∀ k, hasOwn override k = false →
      lookupField (mergeState h base override).2 k = lookupField base k) ∧
    (∀ k, hasOwn override k = true →
      (isPlainObjVal h (lookupField base k) &&
        isPlainObjVal h (lookupField override k)) = true →
      ∃ m, lookupField (mergeState h base override).2 k = JSValue.ref m ∧
        Heap.objAt h m = none ∧
        (mergeState h base override).1.objAt m =
          some (HObj.obj (spreadPair (ownPropsOf h (lookupField base k))
            (ownPropsOf h (lookupField override k))))) ∧
    (∀ k, hasOwn override k = true →
      (isPlainObjVal h (lookupField base k) &&
        isPlainObjVal h (lookupField override k)) = false →
      lookupField (mergeState h base override).2 k =
        lookupField override k) ∧
    (∀ (as' bs : List (String × JSValue)) k2, hasOwn bs k2 = false →
      lookupField (spreadPair as' bs) k2 = lookupField as' k2) ∧
    (∀ (as' bs : List (String × JSValue)) k2, (bs.map Prod.fst).Nodup →
      hasOwn bs k2 = true →
      lookupField (spreadPair as' bs) k2 = lookupField bs k2) := by
  have hclb' : ∀ k, hasOwn override k = true → ∀ i,
      lookupField base k = JSValue.ref i → (Heap.objAt h i).isSome := by
    intro k _ i hi
    rcases lookupField_eq_ref_mem base k i hi with ⟨p, hp, hpv⟩
    have := hclb p hp
    rw [hpv] at this
    exact this
  have hclo' : ∀ p ∈ override, ∀ i, p.2 = JSValue.ref i →
      (Heap.objAt h i).isSome := by
    intro p hp i hi
    have := hclo p hp
    rw [hi] at this
    exact this
  rcases mergeState_fold_spec h base override h base hnd hclb' hclo'
    (fun _ _ => rfl) (le_refl _) (fun _ _ => rfl) with ⟨_, _, hB, hC, hD⟩
  refine ⟨hB, ?_, hD, lookupField_spread_not_own, lookupField_spread_own⟩
  intro k hk hplain
  rcases hC k hk hplain with ⟨m, hm1, hm2, hm3⟩
  exact ⟨m, hm1, objAt_none_of_ge_fresh h m hm2, hm3⟩

/-- Concrete instance of C4, the spec's override-precedence example: base
`{count: 0, task: {id: 1}}` with override `{count: 1, task: undefined}`
yields `count = 1` and `task = undefined` (both sides of `count` and of
`task` fail the both-objects test, so the override values replace), while
a key absent from the override keeps its base value. -/
theorem mergeState_spec_witness :
    lookupField (mergeState [(0, HObj.obj [("id", JSValue.vnum 1)])]
      [("count", JSValue.vnum 0), ("task", JSValue.ref 0)]
      [("count", JSValue.vnum 1), ("task", JSValue.vundef)]).2 "task" =
      JSValue.vundef ∧
    lookupField (mergeState [(0, HObj.obj [("id", JSValue.vnum 1)])]
      [("count", JSValue.vnum 0), ("task", JSValue.ref 0)]
      [("count", JSValue.vnum 1), ("task", JSValue.vundef)]).2 "count" =
      JSValue.vnum 1 := by
  have hm := mergeState_spec [(0, HObj.obj [("id", JSValue.vnum 1)])]
    [("count", JSValue.vnum 0), ("task", JSValue.ref 0)]
    [("count", JSValue.vnum 1), ("task", JSValue.vundef)]
    (by decide) (by decide) (by decide)
  rcases hm with ⟨-, -, hD, -, -⟩
  constructor
  · rw [hD "task" (by decide) (by decide)]
    decide
  · rw [hD "count" (by decide) (by decide)]
    decide

/-- The dispatcher-name prefix computation of `src/hook.ts`:
`key.charAt(0).toUpperCase() + key.slice(1)`. -/
def capitalize (s : String) : String :=
  match s.data with
  | [] => ""
  | c :: cs => String.mk (Char.toUpper c :: cs)

/-- The update functions generated by `useReduxLiteStore` (`src/hook.ts`
lines 22-36): for each state key, in order, exactly one full dispatcher
`dispatch<Capitalize(k)>` (dispatching `{type: k, payload, isPartial:
false}`) and one partial dispatcher `dispatchPartial<Capitalize(k)>`
(dispatching `{type: k, payload, isPartial: true}`); each entry is the
generated name together with the slice key and `isPartial` flag of the
action it dispatches. -/
def dispatcherEntries (keys : List String) : List (String × String × Bool) :=
  keys.foldl (fun acc k =>
    acc ++ [("dispatch" ++ capitalize k, k, false),
      ("dispatchPartial" ++ capitalize k, k, true)]) []

/-- The generated dispatcher names alone. -/
def dispatcherNames (keys : List String) : List String :=
  (dispatcherEntries keys).map Prod.fst

/-- C9. For the store key `user`, the hook generates exactly the
dispatchers `dispatchUser` (full, `isPartial: false`) and
`dispatchPartialUser` (partial, `isPartial: true`) — and no async pair:
`dispatchAsyncUser` and `dispatchAsyncPartialUser`, declared by the
`Dispatchers` type in `src/types.ts` and documented in the README, are
absent from the object the hook returns. -/
theorem hook_generates_only_sync_dispatchers :
    dispatcherEntries ["user"] =
      [("dispatchUser", "user", false), ("dispatchPartialUser", "user", true)] ∧
    "dispatchAsyncUser" ∉ dispatcherNames ["user"] ∧
    "dispatchAsyncPartialUser" ∉ dispatcherNames ["user"] := by
  refine ⟨by decide, ?_, ?_⟩
  · intro hmem
    revert hmem
    decide
  · intro hmem
    revert hmem
    decide

/-- The `compose` of `src/provider.tsx`:
`funcs.reduce((a, b) => (...args) => a(b(...args)))` over unary functions —
the first function ends up outermost. It is never invoked on an empty
array (`useCreateReducer` returns the base dispatch early in that case);
the `[]` equation is dead code needed only for totality. -/
def compose {β : Type} : List (β → β) → β → β
  | [] => fun x => x
  | f :: fs => fs.foldl (fun a b => fun x => a (b x)) f

/-- The middleware wiring of `useCreateReducer` (`src/provider.tsx` lines
32-54): with no middleware the base dispatch itself, otherwise the
`compose` of the api-applied middleware chain around the base dispatch. -/
def applyMiddleware {Api Next : Type} (api : Api)
    (middlewares : List (Api → Next → Next)) (base : Next) : Next :=
  match middlewares with
  | [] => base
  | _ => compose (middlewares.map (fun m => m api)) base

/-- A middleware action handler for the logging instantiation: takes the
action and the pair (log, committed-state), returns the action (as the
source's dispatch does) and the updated pair. -/
abbrev LogNext := String → List String × Int → String × (List String × Int)

/-- A logging middleware in the shape of the authoring contract
`(api) => (next) => (action) => action`: logs `name-start`, calls `next`,
logs `name-end`. -/
def mkLogger (name : String) : Unit → LogNext → LogNext :=
  fun _ next => fun action st =>
    let st1 := (st.1 ++ [name ++ "-start"], st.2)
    let r := next action st1
    (r.1, (r.2.1 ++ [name ++ "-end"], r.2.2))

/-- The base dispatch of the logging instantiation: commits the state
update (here: increments the committed state) and logs `base`. -/
def logBase : LogNext :=
  fun action st => (action, (st.1 ++ ["base"], st.2 + 1))

/-- C6. Middleware composition: with middleware `[m1, m2]` the composed
dispatch is `m1 api (m2 api base)` — the first middleware of the declared
sequence is outermost — so a dispatch runs m1 pre-logic, m2 pre-logic, the
base dispatch (which commits the state update), m2 post-logic, m1
post-logic, as the logging instantiation records; and with zero middleware
the composed dispatch is the base dispatch itself. -/
theorem middleware_composition_order :
    (∀ (Api Next : Type) (api : Api) (base : Next),
      applyMiddleware api ([] : List (Api → Next → Next)) base = base) ∧
    (∀ (Api Next : Type) (api : Api) (m1 m2 : Api → Next → Next)
      (base : Next),
      applyMiddleware api [m1, m2] base = m1 api (m2 api base)) ∧
    (∀ action : String,
      (applyMiddleware () [mkLogger "m1", mkLogger "m2"] logBase action
        ([], 0)).2 =
      (["m1-start", "m2-start", "base", "m2-end", "m1-end"], 1)) := by
  refine ⟨fun _ _ _ _ => rfl, fun _ _ _ _ _ _ => rfl, fun action => rfl⟩

/-- One render of `useSelector` (`src/useSelector.ts` lines 26-33): compute
`selector(state)`, compare it to the cached derived value with
`equalityFn`; when unequal, schedule a re-render carrying the fresh value
as the new cached value; when equal, keep the cached value. The render
itself returns the cached value. Result: (returned value, new cached
value, re-render scheduled). -/
def useSelectorRender {σ V : Type} (selector : σ → V)
    (equalityFn : V → V → Bool) (state : σ) (cached : V) : V × V × Bool :=
  let current := selector state
  if equalityFn cached current then (cached, cached, false)
  else (cached, current, true)

/-- `useSelector` with the default `equalityFn`, the deep `isEqual`
(`src/useSelector.ts` line 17). -/
def useSelectorRenderD (h : Heap) {σ : Type} (selector : σ → JSValue)
    (state : σ) (cached : JSValue) : JSValue × JSValue × Bool :=
  useSelectorRender selector (isEqual h) state cached

/-- A subscriber observing a sequence of state-change notifications:
returns the final cached value and how many re-renders were signalled. -/
def selectorRuns {σ V : Type} (selector : σ → V)
    (equalityFn : V → V → Bool) : List σ → V → V × Nat
  | [], cached => (cached, 0)
  | s :: rest, cached =>
    let r := useSelectorRender selector equalityFn s cached
    let r' := selectorRuns selector equalityFn rest r.2.1
    (r'.1, (if r.2.2 then 1 else 0) + r'.2)

/-- C7. Selector re-render gating: on a state change whose derived value is
`equalityFn`-equal to the cached value, the cached value is retained and
returned (by reference: the very same value) and no re-render is
signalled; on an unequal derived value the cache is replaced by the fresh
value and a re-render is signalled; the default `equalityFn` is the deep
`isEqual`; consequently, over any sequence of state changes whose derived
values all stay equal to the cache, the subscriber is re-rendered zero
times and the cached value never changes. -/
theorem useSelector_gating {σ V : Type} (selector : σ → V)
    (equalityFn : V → V → Bool) (cached : V) :
    (∀ s : σ, equalityFn cached (selector s) = true →
      useSelectorRender selector equalityFn s cached =
        (cached, cached, false)) ∧
    (∀ s : σ, equalityFn cached (selector s) = false →
      useSelectorRender selector equalityFn s cached =
        (cached, selector s, true)) ∧
    (∀ (h : Heap) (sel : σ → JSValue) (s : σ) (c : JSValue),
      useSelectorRenderD h sel s c = useSelectorRender sel (isEqual h) s c) ∧
    (∀ states : List σ, (∀ s ∈ states, equalityFn cached (selector s) = true) →
      selectorRuns selector equalityFn states cached = (cached, 0)) := by
  refine ⟨?_, ?_, fun _ _ _ _ => rfl, ?_⟩
  · intro s hs
    simp only [useSelectorRender]
    rw [hs]
    simp
  · intro s hs
    simp only [useSelectorRender]
    rw [hs]
    simp
  · intro states
    induction states with
    | nil => intro _; rfl
    | cons s rest ih =>
      intro hall
      have hs := hall s (List.mem_cons_self s rest)
      have ih' := ih (fun q hq => hall q (List.mem_cons_of_mem s hq))
      simp [selectorRuns, useSelectorRender, hs, ih']

/-- Concrete instance of C7: a subscriber selecting `counter` with the
default deep equality sees two updates that only change `other`; the
cached value survives unchanged and zero re-renders are signalled. -/
theorem useSelector_gating_witness :
    selectorRuns (fun s => lookupField s "counter") (isEqual [])
      [[("counter", JSValue.vnum 1), ("other", JSValue.vnum 2)],
        [("counter", JSValue.vnum 1), ("other", JSValue.vnum 3)]]
      (JSValue.vnum 1) = (JSValue.vnum 1, 0) :=
  (useSelector_gating (fun s => lookupField s "counter") (isEqual [])
    (JSValue.vnum 1)).2.2.2 _ (by decide)

/-- The observable state of one provider instance with the DevTools bridge
of `src/devTools.ts`: the heap, the committed state reference, the
`lastActionRef` cell, and the log of `send(action, state)` calls made to
the connected DevTools (each recorded with the state reference passed). -/
structure DevState where
  heap : Heap
  stRef : Nat
  lastAction : Option Action
  sent : List (Action × Nat)
deriving DecidableEq, Repr

/-- One dispatch through the DevTools-enhanced dispatch (`src/devTools.ts`
lines 23-38): when enabled, the enhanced dispatch records the action in
`lastActionRef` and forwards to `useReducer`'s dispatch; the `send` call
lives in a `useEffect` whose dependency array is `[state]`, so it runs —
per React's documented semantics, which this step models for the external
React collaborator — only when the commit produces a state reference that
differs from the previous one (a reducer returning the identical reference
causes React to skip the re-render, and an unchanged `[state]` dependency
skips the effect in any case); when the effect runs, it sends the last
recorded action with the new state provided both are present. -/
def devDispatch (fenv : FEnv) (enabled : Bool) (s : DevState) (a : Action) :
    DevState :=
  let la := if enabled then some a else s.lastAction
  let r := reducer fenv s.heap s.stRef a
  if r.2 = s.stRef then
    { s with heap := r.1, lastAction := la }
  else
    { heap := r.1, stRef := r.2, lastAction := la,
      sent := s.sent ++ (match la with
        | some act => if enabled then [(act, r.2)] else []
        | none => []) }

/-- C8 counterexample. With DevTools enabled, dispatching the current value
of `count` on state `{count: 5}` reaches the reducer (which returns the
identical reference), yet no `send` call is made — the claim that the core
notifies DevTools once per dispatch even on a no-op outcome is false. -/
theorem devtools_send_skipped_on_noop :
    ((reducer (fun _ _ _ => JSValue.vundef)
      [(1, HObj.obj [("count", JSValue.vnum 5)])] 1
      ⟨"count", JSValue.vnum 5, false⟩).2 = 1) ∧
    ¬ ((devDispatch (fun _ _ _ => JSValue.vundef) true
      ⟨[(1, HObj.obj [("count", JSValue.vnum 5)])], 1, none, []⟩
      ⟨"count", JSValue.vnum 5, false⟩).sent.length = 1) := by
  decide

/-- C8 as amended. With DevTools enabled, `send(action, newState)` is
invoked exactly once per dispatch whose reducer outcome is a new state
reference, and not at all on a dispatch whose reducer outcome is the
identical state reference (the `useEffect` keyed on `[state]` never
re-runs then). -/
theorem devtools_send_once_per_committed_dispatch (fenv : FEnv)
    (s : DevState) (a : Action) :
    ((reducer fenv s.heap s.stRef a).2 ≠ s.stRef →
      (devDispatch fenv true s a).sent =
        s.sent ++ [(a, (reducer fenv s.heap s.stRef a).2)]) ∧
    ((reducer fenv s.heap s.stRef a).2 = s.stRef →
      (devDispatch fenv true s a).sent = s.sent) := by
  constructor
  · intro hch
    simp only [devDispatch]
    rw [if_neg hch]
    simp
  · intro hno
    simp only [devDispatch]
    rw [if_pos hno]

/-- Concrete instance of the amended C8: a changing dispatch sends exactly
one `(action, state)` pair, and a no-op dispatch sends nothing. -/
theorem devtools_send_once_per_committed_dispatch_witness :
    ((devDispatch (fun _ _ _ => JSValue.vundef) true
      ⟨[(1, HObj.obj [("count", JSValue.vnum 5)])], 1, none, []⟩
      ⟨"count", JSValue.vnum 6, false⟩).sent =
      [(⟨"count", JSValue.vnum 6, false⟩, 2)]) ∧
    ((devDispatch (fun _ _ _ => JSValue.vundef) true
      ⟨[(1, HObj.obj [("count", JSValue.vnum 5)])], 1, none, []⟩
      ⟨"count", JSValue.vnum 5, false⟩).sent = []) :=
  ⟨(devtools_send_once_per_committed_dispatch (fun _ _ _ => JSValue.vundef)
      ⟨[(1, HObj.obj [("count", JSValue.vnum 5)])], 1, none, []⟩
      ⟨"count", JSValue.vnum 6, false⟩).1 (by decide),
    (devtools_send_once_per_committed_dispatch (fun _ _ _ => JSValue.vundef)
      ⟨[(1, HObj.obj [("count", JSValue.vnum 5)])], 1, none, []⟩
      ⟨"count", JSValue.vnum 5, false⟩).2 (by decide)⟩

mutual

/-- The finite shape of an acyclic JavaScript value: a shared primitive
leaf (compared by `===`), a `Date` with its instant, an array of shapes,
or a record of keyed shapes. -/
inductive Tree where
  | prim (v : JSValue) : Tree
  | date (t : Int) : Tree
  | arr (children : TreeList) : Tree
  | obj (fields : TreeFields) : Tree

/-- A list of tree shapes (kept as its own inductive so all recursions
below are structural and compute). -/
inductive TreeList where
  | nil : TreeList
  | cons (t : Tree) (ts : TreeList) : TreeList

/-- A list of keyed tree shapes. -/
inductive TreeFields where
  | nil : TreeFields
  | cons (k : String) (t : Tree) (fs : TreeFields) : TreeFields

end

mutual

/-- Materialise a tree shape in the heap, allocating ids from `n` upward
(children first, node last); returns the heap entries, the value, and the
next free id. Two materialisations from disjoint counters share no ids. -/
def build : Tree → Nat → Heap × JSValue × Nat
  | Tree.prim v, n => ([], v, n)
  | Tree.date t, n => ([(n, HObj.date t)], JSValue.ref n, n + 1)
  | Tree.arr ts, n =>
    let r := buildList ts n
    (r.1 ++ [(r.2.2, HObj.arr r.2.1)], JSValue.ref r.2.2, r.2.2 + 1)
  | Tree.obj fs, n =>
    let r := buildFields fs n
    (r.1 ++ [(r.2.2, HObj.obj r.2.1)], JSValue.ref r.2.2, r.2.2 + 1)

/-- Materialise a list of tree shapes left to right. -/
def buildList : TreeList → Nat → Heap × List JSValue × Nat
  | TreeList.nil, n => ([], [], n)
  | TreeList.cons t ts, n =>
    let r := build t n
    let r' := buildList ts r.2.2
    (r.1 ++ r'.1, r.2.1 :: r'.2.1, r'.2.2)

/-- Materialise keyed tree shapes left to right. -/
def buildFields : TreeFields → Nat → Heap × List (String × JSValue) × Nat
  | TreeFields.nil, n => ([], [], n)
  | TreeFields.cons k t fs, n =>
    let r := build t n
    let r' := buildFields fs r.2.2
    (r.1 ++ r'.1, (k, r.2.1) :: r'.2.1, r'.2.2)

end

mutual

/-- How many heap objects a tree shape materialises. -/
def objCount : Tree → Nat
  | Tree.prim _ => 0
  | Tree.date _ => 1
  | Tree.arr ts => objCountList ts + 1
  | Tree.obj fs => objCountFields fs + 1

def objCountList : TreeList → Nat
  | TreeList.nil => 0
  | TreeList.cons t ts => objCount t + objCountList ts

def objCountFields : TreeFields → Nat
  | TreeFields.nil => 0
  | TreeFields.cons _ t fs => objCount t + objCountFields fs

end

/-- The keys of keyed tree shapes, in order. -/
def fieldKeys : TreeFields → List String
  | TreeFields.nil => []
  | TreeFields.cons k _ fs => k :: fieldKeys fs

/-- The length of a tree-shape list. -/
def treeListLen : TreeList → Nat
  | TreeList.nil => 0
  | TreeList.cons _ ts => treeListLen ts + 1

mutual

/-- Well-formedness of a tree shape: every record node has pairwise
distinct keys (JavaScript objects cannot carry a duplicate key). -/
def wfTree : Tree → Bool
  | Tree.prim _ => true
  | Tree.date _ => true
  | Tree.arr ts => wfTreeList ts
  | Tree.obj fs => decide (fieldKeys fs).Nodup && wfTreeFields fs

def wfTreeList : TreeList → Bool
  | TreeList.nil => true
  | TreeList.cons t ts => wfTree t && wfTreeList ts

def wfTreeFields : TreeFields → Bool
  | TreeFields.nil => true
  | TreeFields.cons _ t fs => wfTree t && wfTreeFields fs

end

mutual

/-- Whether a value unfolds, in heap `h`, to exactly the given finite tree
shape: a primitive leaf is the value itself, a `Date` node matches a heap
`Date` with that instant, an array/record node matches a heap array/record
whose elements unfold pointwise (records also key by key, in order). A
value with a cyclic reachable part unfolds to no finite tree, so
representability entails acyclicity; shared (DAG) references are
representable. -/
def reprB (h : Heap) : JSValue → Tree → Bool
  | v, Tree.prim w => v = w
  | v, Tree.date t =>
    match v with
    | JSValue.ref i =>
      match h.objAt i with
      | some (HObj.date t') => t' == t
      | _ => false
    | _ => false
  | v, Tree.arr ts =>
    match v with
    | JSValue.ref i =>
      match h.objAt i with
      | some (HObj.arr es) => reprListB h es ts
      | _ => false
    | _ => false
  | v, Tree.obj fs =>
    match v with
    | JSValue.ref i =>
      match h.objAt i with
      | some (HObj.obj flds) => reprFieldsB h flds fs
      | _ => false
    | _ => false

def reprListB (h : Heap) : List JSValue → TreeList → Bool
  | [], TreeList.nil => true
  | v :: vs, TreeList.cons t ts => reprB h v t && reprListB h vs ts
  | _, _ => false

def reprFieldsB (h : Heap) : List (String × JSValue) → TreeFields → Bool
  | [], TreeFields.nil => true
  | p :: ps, TreeFields.cons k t fs =>
    (p.1 = k : Bool) && reprB h p.2 t && reprFieldsB h ps fs
  | _, _ => false

end

/-- Two independently materialised copies of the same tree shape in one
heap: the combined heap and the two root values. -/
def twoCopies (t : Tree) : Heap × JSValue × JSValue :=
  let r1 := build t 0
  let r2 := build t r1.2.2
  (r1.1 ++ r2.1, r1.2.1, r2.2.1)

theorem objAt_of_mem_nodup (h : Heap) (hnd : (h.map Prod.fst).Nodup)
    (i : Nat) (c : HObj) (hm : (i, c) ∈ h) : h.objAt i = some c := by
  induction h with
  | nil => simp at hm
  | cons p t ih =>
    simp only [List.map_cons, List.nodup_cons] at hnd
    rcases List.mem_cons.mp hm with rfl | hmem
    · unfold Heap.objAt
      rw [List.find?_cons_of_pos _ (by simp)]
      rfl
    · have hne : p.1 ≠ i := by
        intro he
        exact hnd.1 (he ▸ List.mem_map_of_mem Prod.fst hmem)
      unfold Heap.objAt at *
      rw [List.find?_cons_of_neg _ (by simp [hne])]
      exact ih hnd.2 hmem

theorem lookupField_of_mem_nodup (fs : List (String × JSValue))
    (hnd : (fs.map Prod.fst).Nodup) (k : String) (v : JSValue)
    (hm : (k, v) ∈ fs) : lookupField fs k = v := by
  induction fs with
  | nil => simp at hm
  | cons p t ih =>
    simp only [List.map_cons, List.nodup_cons] at hnd
    rcases List.mem_cons.mp hm with rfl | hmem
    · unfold lookupField
      rw [List.find?_cons_of_pos _ (by simp)]
    · have hne : p.1 ≠ k := by
        intro he
        exact hnd.1 (he ▸ List.mem_map_of_mem Prod.fst hmem)
      unfold lookupField at *
      rw [List.find?_cons_of_neg _ (by simp [hne])]
      exact ih hnd.2 hmem

theorem hasOwn_of_mem (fs : List (String × JSValue)) (k : String)
    (v : JSValue) (hm : (k, v) ∈ fs) : hasOwn fs k = true := by
  unfold hasOwn
  exact List.any_eq_true.mpr ⟨(k, v), hm, by simp⟩

mutual

theorem build_counter_le : ∀ (t : Tree) (n : Nat), n ≤ (build t n).2.2
  | Tree.prim _, n => le_refl n
  | Tree.date _, n => Nat.le_succ n
  | Tree.arr ts, n => le_trans (buildList_counter_le ts n) (Nat.le_succ _)
  | Tree.obj fs, n => le_trans (buildFields_counter_le fs n) (Nat.le_succ _)

theorem buildList_counter_le : ∀ (ts : TreeList) (n : Nat),
    n ≤ (buildList ts n).2.2
  | TreeList.nil, n => le_refl n
  | TreeList.cons t ts, n =>
    le_trans (build_counter_le t n) (buildList_counter_le ts _)

theorem buildFields_counter_le : ∀ (fs : TreeFields) (n : Nat),
    n ≤ (buildFields fs n).2.2
  | TreeFields.nil, n => le_refl n
  | TreeFields.cons _ t fs, n =>
    le_trans (build_counter_le t n) (buildFields_counter_le fs _)

end

mutual

theorem build_mem_range : ∀ (t : Tree) (n : Nat), ∀ p ∈ (build t n).1,
    n ≤ p.1 ∧ p.1 < (build t n).2.2
  | Tree.prim _, n => by
    intro p hp
    simp [build] at hp
  | Tree.date _, n => by
    intro p hp
    simp only [build, List.mem_singleton] at hp
    subst hp
    exact ⟨le_refl n, Nat.lt_succ_self n⟩
  | Tree.arr ts, n => by
    intro p hp
    simp only [build] at hp ⊢
    rcases List.mem_append.mp hp with hmem | hmem
    · have hr := buildList_mem_range ts n p hmem
      exact ⟨hr.1, Nat.lt_succ_of_lt hr.2⟩
    · simp only [List.mem_singleton] at hmem
      subst hmem
      exact ⟨buildList_counter_le ts n, Nat.lt_succ_self _⟩
  | Tree.obj fs, n => by
    intro p hp
    simp only [build] at hp ⊢
    rcases List.mem_append.mp hp with hmem | hmem
    · have hr := buildFields_mem_range fs n p hmem
      exact ⟨hr.1, Nat.lt_succ_of_lt hr.2⟩
    · simp only [List.mem_singleton] at hmem
      subst hmem
      exact ⟨buildFields_counter_le fs n, Nat.lt_succ_self _⟩

theorem buildList_mem_range : ∀ (ts : TreeList) (n : Nat),
    ∀ p ∈ (buildList ts n).1, n ≤ p.1 ∧ p.1 < (buildList ts n).2.2
  | TreeList.nil, n => by
    intro p hp
    simp [buildList] at hp
  | TreeList.cons t ts, n => by
    intro p hp
    simp only [buildList] at hp ⊢
    rcases List.mem_append.mp hp with hmem | hmem
    · have hr := build_mem_range t n p hmem
      exact ⟨hr.1, lt_of_lt_of_le hr.2 (buildList_counter_le ts _)⟩
    · have hr := buildList_mem_range ts (build t n).2.2 p hmem
      exact ⟨le_trans (build_counter_le t n) hr.1, hr.2⟩

theorem buildFields_mem_range : ∀ (fs : TreeFields) (n : Nat),
    ∀ p ∈ (buildFields fs n).1, n ≤ p.1 ∧ p.1 < (buildFields fs n).2.2
  | TreeFields.nil, n => by
    intro p hp
    simp [buildFields] at hp
  | TreeFields.cons _ t fs, n => by
    intro p hp
    simp only [buildFields] at hp ⊢
    rcases List.mem_append.mp hp with hmem | hmem
    · have hr := build_mem_range t n p hmem
      exact ⟨hr.1, lt_of_lt_of_le hr.2 (buildFields_counter_le fs _)⟩
    · have hr := buildFields_mem_range fs (build t n).2.2 p hmem
      exact ⟨le_trans (build_counter_le t n) hr.1, hr.2⟩

end

mutual

theorem build_keys_nodup : ∀ (t : Tree) (n : Nat),
    ((build t n).1.map Prod.fst).Nodup
  | Tree.prim _, n => by simp [build]
  | Tree.date _, n => by simp [build]
  | Tree.arr ts, n => by
    simp only [build, List.map_append]
    refine List.Nodup.append (buildList_keys_nodup ts n) (by simp) ?_
    intro a ha hb
    simp only [List.map_cons, List.map_nil, List.mem_singleton] at hb
    rcases List.mem_map.mp ha with ⟨p, hp, hpa⟩
    have := (buildList_mem_range ts n p hp).2
    rw [hpa, hb] at this
    exact absurd this (lt_irrefl _)
  | Tree.obj fs, n => by
    simp only [build, List.map_append]
    refine List.Nodup.append (buildFields_keys_nodup fs n) (by simp) ?_
    intro a ha hb
    simp only [List.map_cons, List.map_nil, List.mem_singleton] at hb
    rcases List.mem_map.mp ha with ⟨p, hp, hpa⟩
    have := (buildFields_mem_range fs n p hp).2
    rw [hpa, hb] at this
    exact absurd this (lt_irrefl _)

theorem buildList_keys_nodup : ∀ (ts : TreeList) (n : Nat),
    ((buildList ts n).1.map Prod.fst).Nodup
  | TreeList.nil, n => by simp [buildList]
  | TreeList.cons t ts, n => by
    simp only [buildList, List.map_append]
    refine List.Nodup.append (build_keys_nodup t n)
      (buildList_keys_nodup ts _) ?_
    intro a ha hb
    rcases List.mem_map.mp ha with ⟨p, hp, hpa⟩
    rcases List.mem_map.mp hb with ⟨q, hq, hqa⟩
    have h1 := (build_mem_range t n p hp).2
    have h2 := (buildList_mem_range ts (build t n).2.2 q hq).1
    rw [hpa] at h1
    rw [hqa] at h2
    exact absurd (lt_of_lt_of_le h1 h2) (lt_irrefl a)

theorem buildFields_keys_nodup : ∀ (fs : TreeFields) (n : Nat),
    ((buildFields fs n).1.map Prod.fst).Nodup
  | TreeFields.nil, n => by simp [buildFields]
  | TreeFields.cons _ t fs, n => by
    simp only [buildFields, List.map_append]
    refine List.Nodup.append (build_keys_nodup t n)
      (buildFields_keys_nodup fs _) ?_
    intro a ha hb
    rcases List.mem_map.mp ha with ⟨p, hp, hpa⟩
    rcases List.mem_map.mp hb with ⟨q, hq, hqa⟩
    have h1 := (build_mem_range t n p hp).2
    have h2 := (buildFields_mem_range fs (build t n).2.2 q hq).1
    rw [hpa] at h1
    rw [hqa] at h2
    exact absurd (lt_of_lt_of_le h1 h2) (lt_irrefl a)

end

mutual

theorem build_length : ∀ (t : Tree) (n : Nat),
    (build t n).1.length = objCount t
  | Tree.prim _, _ => rfl
  | Tree.date _, _ => rfl
  | Tree.arr ts, n => by
    simp only [build, List.length_append, objCount, buildList_length ts n]
    rfl
  | Tree.obj fs, n => by
    simp only [build, List.length_append, objCount, buildFields_length fs n]
    rfl

theorem buildList_length : ∀ (ts : TreeList) (n : Nat),
    (buildList ts n).1.length = objCountList ts
  | TreeList.nil, _ => rfl
  | TreeList.cons t ts, n => by
    simp only [buildList, List.length_append, objCountList,
      build_length t n, buildList_length ts _]

theorem buildFields_length : ∀ (fs : TreeFields) (n : Nat),
    (buildFields fs n).1.length = objCountFields fs
  | TreeFields.nil, _ => rfl
  | TreeFields.cons _ t fs, n => by
    simp only [buildFields, List.length_append, objCountFields,
      build_length t n, buildFields_length fs _]

end

theorem buildList_values_len : ∀ (ts : TreeList) (n : Nat),
    (buildList ts n).2.1.length = treeListLen ts
  | TreeList.nil, _ => rfl
  | TreeList.cons t ts, n => by
    simp only [buildList, List.length_cons, treeListLen,
      buildList_values_len ts _]

theorem buildFields_keys_eq : ∀ (fs : TreeFields) (n : Nat),
    (buildFields fs n).2.1.map Prod.fst = fieldKeys fs
  | TreeFields.nil, _ => rfl
  | TreeFields.cons k t fs, n => by
    simp only [buildFields, List.map_cons, fieldKeys,
      buildFields_keys_eq fs _]

theorem ieq_refl (H : Heap) (f : Nat) (a : JSValue) (seen : List Nat) :
    ieq H (Nat.succ f) a a seen = (true, seen) := by
  simp [ieq]

theorem ieq_ref_step (H : Heap) (f : Nat) (i j : Nat) (seen : List Nat)
    (hne : i ≠ j) (hni : i ∉ seen) :
    ieq H (Nat.succ f) (JSValue.ref i) (JSValue.ref j) seen =
      (match H.objAt i, H.objAt j with
      | some (HObj.date t1), some (HObj.date t2) => (t1 == t2, i :: seen)
      | some (HObj.arr ea), some (HObj.arr eb) =>
        if ea.length == eb.length then
          (ea.zip eb).foldl (fun acc q =>
            if acc.1 then ieq H f q.1 q.2 acc.2 else acc) (true, i :: seen)
        else (false, i :: seen)
      | some (HObj.obj fa), some (HObj.obj fb) =>
        if fa.length == fb.length then
          fa.foldl (fun acc q =>
            if acc.1 then
              if hasOwn fb q.1 then ieq H f q.2 (lookupField fb q.1) acc.2
              else (false, acc.2)
            else acc) (true, i :: seen)
        else (false, i :: seen)
      | _, _ => (false, i :: seen)) := by
  simp only [ieq]
  rw [if_neg (by simp [hne]), if_neg (by simpa using hni)]

mutual

/-- Core lemma for the amended C5: comparing two independently materialised
copies of one well-formed tree shape succeeds, and the `seen` set only
grows by ids of the left copy. -/
theorem ieq_build_tree (H : Heap) (hnd : (H.map Prod.fst).Nodup) :
    ∀ (t : Tree) (n1 n2 : Nat) (seen : List Nat) (fuel : Nat),
    wfTree t = true →
    (∀ e ∈ (build t n1).1, e ∈ H) →
    (∀ e ∈ (build t n2).1, e ∈ H) →
    (∀ i ∈ seen, i < n1 ∨ (build t n1).2.2 ≤ i) →
    objCount t < fuel →
    ∃ s', ieq H fuel (build t n1).2.1 (build t n2).2.1 seen = (true, s') ∧
      (∀ i ∈ seen, i ∈ s') ∧
      (∀ i ∈ s', i ∈ seen ∨ (n1 ≤ i ∧ i < (build t n1).2.2))
  | Tree.prim v => by
    intro n1 n2 seen fuel _ _ _ _ hfuel
    simp only [objCount] at hfuel
    cases fuel with
    | zero => exact absurd hfuel (lt_irrefl 0)
    | succ f =>
      refine ⟨seen, ?_, fun i hi => hi, fun i hi => Or.inl hi⟩
      exact ieq_refl H f v seen
  | Tree.date d => by
    intro n1 n2 seen fuel _ hA hB hseen hfuel
    simp only [objCount] at hfuel
    cases fuel with
    | zero => exact absurd hfuel (by omega)
    | succ f =>
      by_cases heq : n1 = n2
      · subst heq
        refine ⟨seen, ?_, fun i hi => hi, fun i hi => Or.inl hi⟩
        exact ieq_refl H f (JSValue.ref n1) seen
      · have hA1 : (n1, HObj.date d) ∈ H := hA _ (by simp [build])
        have hB1 : (n2, HObj.date d) ∈ H := hB _ (by simp [build])
        have hoA := objAt_of_mem_nodup H hnd n1 _ hA1
        have hoB := objAt_of_mem_nodup H hnd n2 _ hB1
        have hn1 : n1 ∉ seen := by
          intro hc
          rcases hseen n1 hc with hlt | hge
          · exact absurd hlt (lt_irrefl n1)
          · simp only [build] at hge
            omega
        refine ⟨n1 :: seen, ?_, fun i hi => List.mem_cons_of_mem _ hi, ?_⟩
        · show ieq H (Nat.succ f) (JSValue.ref n1) (JSValue.ref n2) seen =
            (true, n1 :: seen)
          rw [ieq_ref_step H f n1 n2 seen heq hn1, hoA, hoB]
          simp
        · intro i hi
          rcases List.mem_cons.mp hi with rfl | hi2
          · exact Or.inr ⟨le_refl _, by simp only [build]; omega⟩
          · exact Or.inl hi2
  | Tree.arr ts => by
    intro n1 n2 seen fuel hwf hA hB hseen hfuel
    simp only [objCount] at hfuel
    cases fuel with
    | zero => exact absurd hfuel (by omega)
    | succ f =>
      simp only [build] at hA hB hseen ⊢
      by_cases heq : (buildList ts n1).2.2 = (buildList ts n2).2.2
      · rw [heq]
        refine ⟨seen, ?_, fun i hi => hi, fun i hi => Or.inl hi⟩
        exact ieq_refl H f (JSValue.ref (buildList ts n2).2.2) seen
      · have hA1 : ((buildList ts n1).2.2, HObj.arr (buildList ts n1).2.1) ∈ H :=
          hA _ (List.mem_append.mpr (Or.inr (by simp)))
        have hB1 : ((buildList ts n2).2.2, HObj.arr (buildList ts n2).2.1) ∈ H :=
          hB _ (List.mem_append.mpr (Or.inr (by simp)))
        have hoA := objAt_of_mem_nodup H hnd _ _ hA1
        have hoB := objAt_of_mem_nodup H hnd _ _ hB1
        have hn1 : (buildList ts n1).2.2 ∉ seen := by
          intro hc
          rcases hseen _ hc with hlt | hge
          · exact absurd (lt_of_le_of_lt (buildList_counter_le ts n1) hlt)
              (lt_irrefl _)
          · omega
        have hlen : ((buildList ts n1).2.1.length ==
            (buildList ts n2).2.1.length) = true := by
          simp [buildList_values_len ts n1, buildList_values_len ts n2]
        rcases ieq_build_elems H hnd ts n1 n2
          ((buildList ts n1).2.2 :: seen) f
          (by simpa [wfTree] using hwf)
          (fun e he => hA e (List.mem_append.mpr (Or.inl he)))
          (fun e he => hB e (List.mem_append.mpr (Or.inl he)))
          (by
            intro i hi
            rcases List.mem_cons.mp hi with rfl | hi2
            · exact Or.inr (le_refl _)
            · rcases hseen i hi2 with hlt | hge
              · exact Or.inl hlt
              · exact Or.inr (by omega))
          (by omega) with ⟨s', hfold, hsub, hrange⟩
        refine ⟨s', ?_, ?_, ?_⟩
        · rw [ieq_ref_step H f _ _ seen heq hn1, hoA, hoB]
          simp only [hlen, if_true]
          exact hfold
        · intro i hi
          exact hsub i (List.mem_cons_of_mem _ hi)
        · intro i hi
          rcases hrange i hi with hi2 | hi2
          · rcases List.mem_cons.mp hi2 with rfl | hi3
            · exact Or.inr ⟨buildList_counter_le ts n1, by omega⟩
            · exact Or.inl hi3
          · exact Or.inr ⟨hi2.1, by omega⟩
  | Tree.obj fs => by
    intro n1 n2 seen fuel hwf hA hB hseen hfuel
    simp only [objCount] at hfuel
    cases fuel with
    | zero => exact absurd hfuel (by omega)
    | succ f =>
      simp only [build] at hA hB hseen ⊢
      by_cases heq : (buildFields fs n1).2.2 = (buildFields fs n2).2.2
      · rw [heq]
        refine ⟨seen, ?_, fun i hi => hi, fun i hi => Or.inl hi⟩
        exact ieq_refl H f (JSValue.ref (buildFields fs n2).2.2) seen
      · have hA1 : ((buildFields fs n1).2.2,
            HObj.obj (buildFields fs n1).2.1) ∈ H :=
          hA _ (List.mem_append.mpr (Or.inr (by simp)))
        have hB1 : ((buildFields fs n2).2.2,
            HObj.obj (buildFields fs n2).2.1) ∈ H :=
          hB _ (List.mem_append.mpr (Or.inr (by simp)))
        have hoA := objAt_of_mem_nodup H hnd _ _ hA1
        have hoB := objAt_of_mem_nodup H hnd _ _ hB1
        have hn1 : (buildFields fs n1).2.2 ∉ seen := by
          intro hc
          rcases hseen _ hc with hlt | hge
          · exact absurd (lt_of_le_of_lt (buildFields_counter_le fs n1) hlt)
              (lt_irrefl _)
          · omega
        have hwf' : (decide (fieldKeys fs).Nodup && wfTreeFields fs) = true := by
          simpa [wfTree] using hwf
        have hknd : ((buildFields fs n2).2.1.map Prod.fst).Nodup := by
          rw [buildFields_keys_eq fs n2]
          have hsplit := (Bool.and_eq_true _ _).mp hwf'
          exact of_decide_eq_true hsplit.1
        have hlen : ((buildFields fs n1).2.1.length ==
            (buildFields fs n2).2.1.length) = true := by
          have h1 : (buildFields fs n1).2.1.length = (fieldKeys fs).length := by
            rw [← buildFields_keys_eq fs n1, List.length_map]
          have h2 : (buildFields fs n2).2.1.length = (fieldKeys fs).length := by
            rw [← buildFields_keys_eq fs n2, List.length_map]
          simp [h1, h2]
        rcases ieq_build_fields H hnd fs n1 n2 ((buildFields fs n2).2.1)
          ((buildFields fs n1).2.2 :: seen) f
          (((Bool.and_eq_true _ _).mp hwf').2)
          (fun e he => hA e (List.mem_append.mpr (Or.inl he)))
          (fun e he => hB e (List.mem_append.mpr (Or.inl he)))
          (fun e he => he)
          hknd
          (by
            intro i hi
            rcases List.mem_cons.mp hi with rfl | hi2
            · exact Or.inr (le_refl _)
            · rcases hseen i hi2 with hlt | hge
              · exact Or.inl hlt
              · exact Or.inr (by omega))
          (by omega) with ⟨s', hfold, hsub, hrange⟩
        refine ⟨s', ?_, ?_, ?_⟩
        · rw [ieq_ref_step H f _ _ seen heq hn1, hoA, hoB]
          simp only [hlen, if_true]
          exact hfold
        · intro i hi
          exact hsub i (List.mem_cons_of_mem _ hi)
        · intro i hi
          rcases hrange i hi with hi2 | hi2
          · rcases List.mem_cons.mp hi2 with rfl | hi3
            · exact Or.inr ⟨buildFields_counter_le fs n1, by omega⟩
            · exact Or.inl hi3
          · exact Or.inr ⟨hi2.1, by omega⟩

/-- Companion of `ieq_build_tree` for the element-wise array fold. -/
theorem ieq_build_elems (H : Heap) (hnd : (H.map Prod.fst).Nodup) :
    ∀ (ts : TreeList) (n1 n2 : Nat) (seen : List Nat) (fuel : Nat),
    wfTreeList ts = true →
    (∀ e ∈ (buildList ts n1).1, e ∈ H) →
    (∀ e ∈ (buildList ts n2).1, e ∈ H) →
    (∀ i ∈ seen, i < n1 ∨ (buildList ts n1).2.2 ≤ i) →
    objCountList ts < fuel →
    ∃ s', ((buildList ts n1).2.1.zip (buildList ts n2).2.1).foldl
        (fun acc q => if acc.1 then ieq H fuel q.1 q.2 acc.2 else acc)
        (true, seen) = (true, s') ∧
      (∀ i ∈ seen, i ∈ s') ∧
      (∀ i ∈ s', i ∈ seen ∨ (n1 ≤ i ∧ i < (buildList ts n1).2.2))
  | TreeList.nil => by
    intro n1 n2 seen fuel _ _ _ _ _
    exact ⟨seen, rfl, fun i hi => hi, fun i hi => Or.inl hi⟩
  | TreeList.cons t ts => by
    intro n1 n2 seen fuel hwf hA hB hseen hfuel
    simp only [wfTreeList, Bool.and_eq_true] at hwf
    simp only [objCountList] at hfuel
    simp only [buildList] at hA hB hseen ⊢
    rcases ieq_build_tree H hnd t n1 n2 seen fuel hwf.1
      (fun e he => hA e (List.mem_append.mpr (Or.inl he)))
      (fun e he => hB e (List.mem_append.mpr (Or.inl he)))
      (by
        intro i hi
        rcases hseen i hi with hlt | hge
        · exact Or.inl hlt
        · exact Or.inr (le_trans (buildList_counter_le ts _) hge))
      (by omega) with ⟨s1, hieq, hsub1, hrange1⟩
    rcases ieq_build_elems H hnd ts (build t n1).2.2 (build t n2).2.2 s1 fuel
      hwf.2
      (fun e he => hA e (List.mem_append.mpr (Or.inr he)))
      (fun e he => hB e (List.mem_append.mpr (Or.inr he)))
      (by
        intro i hi
        rcases hrange1 i hi with hi2 | hi2
        · rcases hseen i hi2 with hlt | hge
          · exact Or.inl (lt_of_lt_of_le hlt (build_counter_le t n1))
          · exact Or.inr hge
        · exact Or.inl hi2.2)
      (by omega) with ⟨s2, hfold, hsub2, hrange2⟩
    refine ⟨s2, ?_, ?_, ?_⟩
    · rw [List.zip_cons_cons, List.foldl_cons]
      simp only [hieq]
      exact hfold
    · intro i hi
      exact hsub2 i (hsub1 i hi)
    · intro i hi
      rcases hrange2 i hi with hi2 | hi2
      · rcases hrange1 i hi2 with hi3 | hi3
        · exact Or.inl hi3
        · exact Or.inr ⟨hi3.1,
            lt_of_lt_of_le hi3.2 (buildList_counter_le ts _)⟩
      · exact Or.inr ⟨le_trans (build_counter_le t n1) hi2.1, hi2.2⟩

/-- Companion of `ieq_build_tree` for the per-key record fold: the left
record's built fields are walked while every key is looked up in the full
right record `fbFull`. -/
theorem ieq_build_fields (H : Heap) (hnd : (H.map Prod.fst).Nodup) :
    ∀ (fs : TreeFields) (n1 n2 : Nat) (fbFull : List (String × JSValue))
      (seen : List Nat) (fuel : Nat),
    wfTreeFields fs = true →
    (∀ e ∈ (buildFields fs n1).1, e ∈ H) →
    (∀ e ∈ (buildFields fs n2).1, e ∈ H) →
    (∀ e ∈ (buildFields fs n2).2.1, e ∈ fbFull) →
    ((fbFull.map Prod.fst).Nodup) →
    (∀ i ∈ seen, i < n1 ∨ (buildFields fs n1).2.2 ≤ i) →
    objCountFields fs < fuel →
    ∃ s', ((buildFields fs n1).2.1).foldl
        (fun acc q =>
          if acc.1 then
            if hasOwn fbFull q.1 then
              ieq H fuel q.2 (lookupField fbFull q.1) acc.2
            else (false, acc.2)
          else acc) (true, seen) = (true, s') ∧
      (∀ i ∈ seen, i ∈ s') ∧
      (∀ i ∈ s', i ∈ seen ∨ (n1 ≤ i ∧ i < (buildFields fs n1).2.2))
  | TreeFields.nil => by
    intro n1 n2 fbFull seen fuel _ _ _ _ _ _ _
    exact ⟨seen, rfl, fun i hi => hi, fun i hi => Or.inl hi⟩
  | TreeFields.cons k t fs => by
    intro n1 n2 fbFull seen fuel hwf hA hB hsubfb hfbnd hseen hfuel
    simp only [wfTreeFields, Bool.and_eq_true] at hwf
    simp only [objCountFields] at hfuel
    simp only [buildFields] at hA hB hsubfb hseen ⊢
    have hmemfb : (k, (build t n2).2.1) ∈ fbFull :=
      hsubfb _ (List.mem_cons_self _ _)
    have hown : hasOwn fbFull k = true := hasOwn_of_mem fbFull k _ hmemfb
    have hlook : lookupField fbFull k = (build t n2).2.1 :=
      lookupField_of_mem_nodup fbFull hfbnd k _ hmemfb
    rcases ieq_build_tree H hnd t n1 n2 seen fuel hwf.1
      (fun e he => hA e (List.mem_append.mpr (Or.inl he)))
      (fun e he => hB e (List.mem_append.mpr (Or.inl he)))
      (by
        intro i hi
        rcases hseen i hi with hlt | hge
        · exact Or.inl hlt
        · exact Or.inr (le_trans (buildFields_counter_le fs _) hge))
      (by omega) with ⟨s1, hieq, hsub1, hrange1⟩
    rcases ieq_build_fields H hnd fs (build t n1).2.2 (build t n2).2.2 fbFull
      s1 fuel hwf.2
      (fun e he => hA e (List.mem_append.mpr (Or.inr he)))
      (fun e he => hB e (List.mem_append.mpr (Or.inr he)))
      (fun e he => hsubfb e (List.mem_cons_of_mem _ he))
      hfbnd
      (by
        intro i hi
        rcases hrange1 i hi with hi2 | hi2
        · rcases hseen i hi2 with hlt | hge
          · exact Or.inl (lt_of_lt_of_le hlt (build_counter_le t n1))
          · exact Or.inr hge
        · exact Or.inl hi2.2)
      (by omega) with ⟨s2, hfold, hsub2, hrange2⟩
    refine ⟨s2, ?_, ?_, ?_⟩
    · rw [List.foldl_cons]
      simp only [hown, if_true, hlook, hieq]
      exact hfold
    · intro i hi
      exact hsub2 i (hsub1 i hi)
    · intro i hi
      rcases hrange2 i hi with hi2 | hi2
      · rcases hrange1 i hi2 with hi3 | hi3
        · exact Or.inl hi3
        · exact Or.inr ⟨hi3.1,
            lt_of_lt_of_le hi3.2 (buildFields_counter_le fs _)⟩
      · exact Or.inr ⟨le_trans (build_counter_le t n1) hi2.1, hi2.2⟩

end

/-- The runtime constructor of a heap object, standing for JavaScript's
`constructor` comparison (`Date` vs `Array` vs `Object`). -/
def kindIdx : HObj → Nat
  | HObj.date _ => 0
  | HObj.arr _ => 1
  | HObj.obj _ => 2

/-- A heap with left-side shared (DAG) references: object 1 is
`{x: o, y: o}` for one shared empty record `o` (object 0), and object 4 is
`{x: {}, y: {}}` with two distinct empty records (objects 2 and 3). -/
def dagHeap : Heap :=
  [(0, HObj.obj []), (1, HObj.obj [("x", JSValue.ref 0), ("y", JSValue.ref 0)]),
    (2, HObj.obj []), (3, HObj.obj []),
    (4, HObj.obj [("x", JSValue.ref 2), ("y", JSValue.ref 3)])]

/-- The common finite shape `{x: {}, y: {}}` of objects 1 and 4 of
`dagHeap`. -/
def dagShape : Tree :=
  Tree.obj (TreeFields.cons "x" (Tree.obj TreeFields.nil)
    (TreeFields.cons "y" (Tree.obj TreeFields.nil) TreeFields.nil))

/-- C5 counterexample. Objects 1 and 4 of `dagHeap` both unfold to the same
finite tree `{x: {}, y: {}}` — they are structurally equal and acyclic —
yet `isEqual` returns `false`: the shared reference `o` of the left operand
is entered under key `x`, recorded in the `seen` set, and then hit again
under key `y`, because the mutated `WeakSet` persists across sibling
comparisons. The claim's "returns true for structurally equal acyclic
values" is therefore false as stated. -/
theorem isEqual_false_on_structurally_equal_acyclic_input :
    reprB dagHeap (JSValue.ref 1) dagShape = true ∧
    reprB dagHeap (JSValue.ref 4) dagShape = true ∧
    isEqual dagHeap (JSValue.ref 1) (JSValue.ref 4) = false := by
  decide

/-- C5 as amended ("acyclic" strengthened to "acyclic and without repeated
references in the left operand", i.e. tree-shaped — the counterexample
shows plain acyclicity is not enough). `isEqual` (1) returns true on two
independently materialised copies of any well-formed finite tree shape
(nested records and arrays recursively, `Date`s by instant, primitive
leaves by value); (2) is false on the order-permuted arrays `[1,2,3]` vs
`[3,2,1]`; (3) is false when either operand is not a heap object and the
two are not identical (`===`); (4) is false on objects of different
runtime constructors; (5) compares two distinct `Date` objects exactly by
their instants; (6) short-circuits to false on arrays of different
lengths, and (7) on records with key sets of different cardinality;
(8) returns false whenever the left operand's reference was already
encountered during the comparison, and (9) in particular on two
self-referential objects of the same shape. -/
theorem isEqual_spec_amended :
    (∀ t : Tree, wfTree t = true →
      isEqual (twoCopies t).1 (twoCopies t).2.1 (twoCopies t).2.2 = true) ∧
    (isEqual [(0, HObj.arr [JSValue.vnum 1, JSValue.vnum 2, JSValue.vnum 3]),
        (1, HObj.arr [JSValue.vnum 3, JSValue.vnum 2, JSValue.vnum 1])]
      (JSValue.ref 0) (JSValue.ref 1) = false) ∧
    (∀ (h : Heap) (a b : JSValue), (isObjVal a = false ∨ isObjVal b = false) →
      a ≠ b → isEqual h a b = false) ∧
    (∀ (h : Heap) (i j : Nat) (ca cb : HObj), i ≠ j →
      Heap.objAt h i = some ca → Heap.objAt h j = some cb →
      kindIdx ca ≠ kindIdx cb →
      isEqual h (JSValue.ref i) (JSValue.ref j) = false) ∧
    (∀ (h : Heap) (i j : Nat) (t1 t2 : Int), i ≠ j →
      Heap.objAt h i = some (HObj.date t1) →
      Heap.objAt h j = some (HObj.date t2) →
      isEqual h (JSValue.ref i) (JSValue.ref j) = (t1 == t2)) ∧
    (∀ (h : Heap) (i j : Nat) (ea eb : List JSValue), i ≠ j →
      Heap.objAt h i = some (HObj.arr ea) →
      Heap.objAt h j = some (HObj.arr eb) →
      ea.length ≠ eb.length →
      isEqual h (JSValue.ref i) (JSValue.ref j) = false) ∧
    (∀ (h : Heap) (i j : Nat) (fa fb : List (String × JSValue)), i ≠ j →
      Heap.objAt h i = some (HObj.obj fa) →
      Heap.objAt h j = some (HObj.obj fb) →
      fa.length ≠ fb.length →
      isEqual h (JSValue.ref i) (JSValue.ref j) = false) ∧
    (∀ (h : Heap) (f : Nat) (i j : Nat) (seen : List Nat), i ∈ seen →
      JSValue.ref i ≠ JSValue.ref j →
      ieq h (Nat.succ f) (JSValue.ref i) (JSValue.ref j) seen =
        (false, seen)) ∧
    (isEqual [(0, HObj.obj [("self", JSValue.ref 0)]),
        (1, HObj.obj [("self", JSValue.ref 1)])]
      (JSValue.ref 0) (JSValue.ref 1) = false) := by
  refine ⟨?_, by decide, ?_, ?_, ?_, ?_, ?_, ?_, by decide⟩
  · intro t hwf
    have hlenA := build_length t 0
    have hlenB := build_length t (build t 0).2.2
    have hnd : (((twoCopies t).1).map Prod.fst).Nodup := by
      simp only [twoCopies, List.map_append]
      refine List.Nodup.append (build_keys_nodup t 0)
        (build_keys_nodup t _) ?_
      intro a ha hb
      rcases List.mem_map.mp ha with ⟨p, hp, hpa⟩
      rcases List.mem_map.mp hb with ⟨q, hq, hqa⟩
      have h1 := (build_mem_range t 0 p hp).2
      have h2 := (build_mem_range t (build t 0).2.2 q hq).1
      rw [hpa] at h1
      rw [hqa] at h2
      exact absurd (lt_of_lt_of_le h1 h2) (lt_irrefl a)
    have hfuel : objCount t < ((twoCopies t).1).length + 1 := by
      have : ((twoCopies t).1).length =
          (build t 0).1.length + (build t (build t 0).2.2).1.length := by
        simp [twoCopies]
      omega
    rcases ieq_build_tree ((twoCopies t).1) hnd t 0 (build t 0).2.2 []
      (((twoCopies t).1).length + 1) hwf
      (fun e he => List.mem_append.mpr (Or.inl he))
      (fun e he => List.mem_append.mpr (Or.inr he))
      (fun i hi => absurd hi (List.not_mem_nil i))
      hfuel with ⟨s', hieq, -, -⟩
    unfold isEqual
    show (ieq (twoCopies t).1 ((twoCopies t).1.length + 1) (build t 0).2.1
      (build t (build t 0).2.2).2.1 []).1 = true
    rw [hieq]
  · intro h a b hk hne
    unfold isEqual
    show (ieq h (Nat.succ h.length) a b []).1 = false
    cases a <;> cases b <;>
      first
      | (exact absurd rfl hne)
      | (simp [ieq, hne]; done)
      | (rcases hk with hk | hk <;> simp [isObjVal] at hk)
  · intro h i j ca cb hne hoA hoB hk
    unfold isEqual
    show (ieq h (Nat.succ h.length) (JSValue.ref i) (JSValue.ref j) []).1 =
      false
    rw [ieq_ref_step h h.length i j [] (by simpa using hne)
      (List.not_mem_nil i), hoA, hoB]
    cases ca <;> cases cb <;>
      first
      | (exact absurd rfl hk)
      | rfl
  · intro h i j t1 t2 hne hoA hoB
    unfold isEqual
    show (ieq h (Nat.succ h.length) (JSValue.ref i) (JSValue.ref j) []).1 =
      (t1 == t2)
    rw [ieq_ref_step h h.length i j [] (by simpa using hne)
      (List.not_mem_nil i), hoA, hoB]
  · intro h i j ea eb hne hoA hoB hlen
    unfold isEqual
    show (ieq h (Nat.succ h.length) (JSValue.ref i) (JSValue.ref j) []).1 =
      false
    rw [ieq_ref_step h h.length i j [] (by simpa using hne)
      (List.not_mem_nil i), hoA, hoB]
    simp [hlen]
  · intro h i j fa fb hne hoA hoB hlen
    unfold isEqual
    show (ieq h (Nat.succ h.length) (JSValue.ref i) (JSValue.ref j) []).1 =
      false
    rw [ieq_ref_step h h.length i j [] (by simpa using hne)
      (List.not_mem_nil i), hoA, hoB]
    simp [hlen]
  · intro h f i j seen hmem hne
    simp only [ieq]
    rw [if_neg (by simpa using hne), if_pos (by simpa using hmem)]

/-- Concrete instance of the amended C5: two fresh copies of the nested
shape `{a: [1, {b: 2}]}` — the spec's own example — compare equal. -/
theorem isEqual_spec_amended_witness :
    isEqual (twoCopies (Tree.obj (TreeFields.cons "a"
        (Tree.arr (TreeList.cons (Tree.prim (JSValue.vnum 1))
          (TreeList.cons (Tree.obj (TreeFields.cons "b"
            (Tree.prim (JSValue.vnum 2)) TreeFields.nil)) TreeList.nil)))
        TreeFields.nil))).1
      (twoCopies (Tree.obj (TreeFields.cons "a"
        (Tree.arr (TreeList.cons (Tree.prim (JSValue.vnum 1))
          (TreeList.cons (Tree.obj (TreeFields.cons "b"
            (Tree.prim (JSValue.vnum 2)) TreeFields.nil)) TreeList.nil)))
        TreeFields.nil))).2.1
      (twoCopies (Tree.obj (TreeFields.cons "a"
        (Tree.arr (TreeList.cons (Tree.prim (JSValue.vnum 1))
          (TreeList.cons (Tree.obj (TreeFields.cons "b"
            (Tree.prim (JSValue.vnum 2)) TreeFields.nil)) TreeList.nil)))
        TreeFields.nil))).2.2 = true :=
  isEqual_spec_amended.1 _ (by decide)

end ReduxLite
